import Mathlib

/-!
Verification development for a 2-D path-planning library
(occupancy-grid A* planner and sampling-based RRT / RRT* planners).

The Lean definitions below are a shallow embedding of the Python source:

* `src/src/planning/astar.py` — `GridMap`, `AStarPlanner` (search,
  path reconstruction, path smoothing);
* `src/src/planning/rrt.py` — `RRTPlanner`, `RRTStarPlanner`
  (collision predicates, steering, tree growth, rewiring).

Modelling conventions:

* Python floats are modelled as real numbers (`ℝ`); grid coordinates are
  integers (`ℤ`).  Comparisons on reals use classical decidability, so the
  continuous-space planners are noncomputable definitions; all grid-side
  code is executable.
* `numpy` randomness is modelled by an explicit stream of draws passed as
  a list: each call that would consume randomness consumes one list entry.
  `np.random.randint(0, n)` with `n ≤ 0` raises `ValueError`; fallible
  operations therefore return `Option`.
* Python `while` loops whose termination is extrinsic (the A* main loop,
  parent-chain walks) are embedded with an explicit fuel parameter;
  theorems are proved for every fuel, and chain walks receive fuel that is
  proved sufficient from the tree invariants.
* Mutable object graphs (`RRTNode.parent` references) are embedded as an
  arena: the node list of the planner together with parent *indices* into
  that list, exactly mirroring `self.nodes`.
-/

open Classical

namespace UAV

/-! ## Occupancy grid (`GridMap` in astar.py)

`grid = np.zeros((height, width))`, `0 = free`, `1 = obstacle`.
The cell array is embedded as a boolean function `blocked` together with
the dimensions; `blocked x y = true` means the cell holds a `1`. -/

structure GridMap where
  width : ℤ
  height : ℤ
  blocked : ℤ → ℤ → Bool

/-- `GridMap.__init__`: a fresh all-zero grid. -/
def mkGrid (w h : ℤ) : GridMap :=
  { width := w, height := h, blocked := fun _ _ => false }

/-- `GridMap.is_valid`: bounds check only. -/
def isValid (g : GridMap) (x y : ℤ) : Bool :=
  decide (0 ≤ x) && decide (x < g.width) && decide (0 ≤ y) && decide (y < g.height)

/-- `GridMap.is_free`: free iff in bounds and not blocked. -/
def isFree (g : GridMap) (x y : ℤ) : Bool :=
  isValid g x y && !(g.blocked x y)

/-- `GridMap.add_obstacle`: mark one cell blocked, silently ignoring
out-of-bounds coordinates. -/
def addObstacle (g : GridMap) (x y : ℤ) : GridMap :=
  if isValid g x y then
    { g with blocked := fun cx cy => if cx = x ∧ cy = y then true else g.blocked cx cy }
  else g

/-- Python/numpy slice-endpoint normalisation for `a[s:e]` on an axis of
length `len`: a negative endpoint counts from the end of the axis
(`len + e`).  This wrap-around is part of the observable behaviour of
`add_rectangle` and is embedded faithfully. -/
def pySliceEnd (len e : ℤ) : ℤ :=
  if e < 0 then len + e else e

/-- `GridMap.add_rectangle`: after `x1, x2 = max(0, min(x1,x2)), min(width, max(x1,x2))`
(and similarly for `y`), executes `grid[y1:y2, x1:x2] = 1`.  The slice
endpoints are interpreted with numpy semantics (`pySliceEnd`): in
particular a clamped upper endpoint that is still negative wraps around to
`width + e`. -/
def addRectangle (g : GridMap) (x1 y1 x2 y2 : ℤ) : GridMap :=
  let sx : ℤ := max 0 (min x1 x2)
  let ex : ℤ := pySliceEnd g.width (min g.width (max x1 x2))
  let sy : ℤ := max 0 (min y1 y2)
  let ey : ℤ := pySliceEnd g.height (min g.height (max y1 y2))
  { g with blocked := fun cx cy =>
      if sx ≤ cx ∧ cx < ex ∧ sy ≤ cy ∧ cy < ey then true else g.blocked cx cy }

/-- `np.random.randint(0, n)` for one draw `r` from the random stream:
uniform on `[0, n)`; raises `ValueError` (`none`) when `n ≤ 0`. -/
def npRandint (n : ℤ) (r : ℕ) : Option ℤ :=
  if n ≤ 0 then none else some ((r : ℤ) % n)

/-- `GridMap.add_random_obstacles(count, size)`: `count` iterations, each
drawing a random top-left corner `x ∈ [0, width - size)`,
`y ∈ [0, height - size)` and blocking the rectangle
`(x, y, x + size, y + size)`.  The random stream is passed explicitly as
one `(ℕ × ℕ)` pair per iteration, so `draws.length` plays the role of
`count`.  A draw with `width - size ≤ 0` or `height - size ≤ 0` raises
`ValueError` inside `np.random.randint`, modelled as `none`. -/
def addRandomObstacles (g : GridMap) (size : ℤ) : List (ℕ × ℕ) → Option GridMap
  | [] => some g
  | (rx, ry) :: rest => do
      let x ← npRandint (g.width - size) rx
      let y ← npRandint (g.height - size) ry
      addRandomObstacles (addRectangle g x y (x + size) (y + size)) size rest

/-! ## Continuous collision world and RRT primitives (rrt.py)

Coordinates are reals; obstacles are circles `(x, y, radius)`. -/

/-- Euclidean distance `np.sqrt((x2-x1)**2 + (y2-y1)**2)` between two
points, used throughout rrt.py. -/
noncomputable def distR (p q : ℝ × ℝ) : ℝ :=
  Real.sqrt ((p.1 - q.1) ^ 2 + (p.2 - q.2) ^ 2)

/-- One circular obstacle `(ox, oy, r)`. -/
abbrev Circle := ℝ × ℝ × ℝ

/-- `RRTPlanner.is_collision_free(x, y)`: the point is free unless some
circle has `dist < r` (strict), i.e. a point exactly on a boundary is
free. -/
noncomputable def isCollisionFree (obs : List Circle) (x y : ℝ) : Bool :=
  obs.all fun c => !(decide (distR (x, y) (c.1, c.2.1) < c.2.2))

/-- The number of sub-segments `steps = max(2, int(dist / 1.0))` used by
`RRTPlanner.is_path_collision_free`; `int` truncates and the distance is
nonnegative, so this is `max 2 ⌊dist⌋`. -/
noncomputable def segSteps (x1 y1 x2 y2 : ℝ) : ℕ :=
  max 2 (⌊distR (x1, y1) (x2, y2)⌋.toNat)

/-- The sample points of `RRTPlanner.is_path_collision_free`: for
`i in range(steps + 1)`, the point at parameter `t = i / steps` along the
segment. -/
noncomputable def pathSamples (x1 y1 x2 y2 : ℝ) : List (ℝ × ℝ) :=
  let steps := segSteps x1 y1 x2 y2
  (List.range (steps + 1)).map fun (i : ℕ) =>
    (x1 + (i : ℝ) / (steps : ℝ) * (x2 - x1), y1 + (i : ℝ) / (steps : ℝ) * (y2 - y1))

/-- `RRTPlanner.is_path_collision_free(x1, y1, x2, y2)`: every sample
point along the segment must be point-free. -/
noncomputable def isPathCollisionFree (obs : List Circle) (x1 y1 x2 y2 : ℝ) : Bool :=
  (pathSamples x1 y1 x2 y2).all fun p => isCollisionFree obs p.1 p.2

/-- `RRTPlanner.steer(from_node, to_x, to_y)`, coordinates only.
If the target is closer than `step_size` the steered point is the target;
otherwise the code moves `step_size` along `(cos θ, sin θ)` with
`θ = atan2(dy, dx)`.  For `(dx, dy) ≠ (0, 0)` these equal
`dx / dist` and `dy / dist`; `np.arctan2(0, 0) = 0` gives `(1, 0)`. -/
noncomputable def steer (stepSize fx fy tx ty : ℝ) : ℝ × ℝ :=
  let dx := tx - fx
  let dy := ty - fy
  let dist := Real.sqrt (dx ^ 2 + dy ^ 2)
  if dist < stepSize then (tx, ty)
  else if dist = 0 then (fx + stepSize, fy)
  else (fx + stepSize * (dx / dist), fy + stepSize * (dy / dist))

/-! ## RRT tree arena

Python `RRTNode` objects live in `self.nodes` and hold object references
to their parents; we embed the node list as an arena with parent
*indices*.  Object identity corresponds to arena index; the dataclass
`==` (field-by-field value equality) used in the two `continue` guards of
`RRTStarPlanner.plan` is embedded as index equality, which coincides with
it except between distinct nodes whose entire field values (including
parent chains) are duplicated. -/

structure RRTNode where
  x : ℝ
  y : ℝ
  parent : Option ℕ
  cost : ℝ

/-- The root node `RRTNode(start[0], start[1])` (cost defaults to `0.0`). -/
def initNode (start : ℝ × ℝ) : RRTNode :=
  ⟨start.1, start.2, none, 0⟩

/-- Planner configuration fields read during `plan`
(`neighborRadius` is only used by the RRT* variant). -/
structure RRTConfig where
  obstacles : List Circle
  stepSize : ℝ
  neighborRadius : ℝ
  goalThreshold : ℝ

/-- `RRTPlanner.find_nearest(x, y)`: linear scan keeping the first node
of strictly minimal distance (`min_dist` starts at `inf`, modelled by the
`Option` accumulator).  Returns the node's index. -/
noncomputable def findNearest (ns : List RRTNode) (x y : ℝ) : Option ℕ :=
  (ns.enum.foldl
    (fun acc p =>
      match acc with
      | none => some (p.1, distR (p.2.x, p.2.y) (x, y))
      | some (bi, bd) =>
          if distR (p.2.x, p.2.y) (x, y) < bd then some (p.1, distR (p.2.x, p.2.y) (x, y))
          else some (bi, bd))
    none).map Prod.fst

/-- `RRTStarPlanner.find_nearby(x, y)`: indices of all nodes at distance
strictly below `neighbor_radius`, in node order. -/
noncomputable def findNearby (nr : ℝ) (ns : List RRTNode) (x y : ℝ) : List ℕ :=
  ns.enum.filterMap fun p =>
    if distR (p.2.x, p.2.y) (x, y) < nr then some p.1 else none

/-- `RRTStarPlanner.get_cost(node)`: walk the parent chain summing edge
lengths.  The Python `while` loop terminates because the tree is acyclic;
the embedding receives fuel, and `getCost` passes `ns.length`, which the
tree invariant proves sufficient. -/
noncomputable def getCostAux (ns : List RRTNode) : ℕ → ℕ → ℝ
  | 0, _ => 0
  | fuel + 1, i =>
      match ns.get? i with
      | none => 0
      | some n =>
          match n.parent with
          | none => 0
          | some j =>
              match ns.get? j with
              | none => 0
              | some m => Real.sqrt ((n.x - m.x) ^ 2 + (n.y - m.y) ^ 2) + getCostAux ns fuel j

noncomputable def getCost (ns : List RRTNode) (i : ℕ) : ℝ :=
  getCostAux ns ns.length i

/-- Parent-chain walk of `_extract_path`, collecting positions from a
node towards the root (fuelled like `getCostAux`). -/
noncomputable def extractAux (ns : List RRTNode) : ℕ → Option ℕ → List (ℝ × ℝ)
  | 0, _ => []
  | _ + 1, none => []
  | fuel + 1, some i =>
      match ns.get? i with
      | none => []
      | some n => (n.x, n.y) :: extractAux ns fuel n.parent

/-- `_extract_path(goal_node)`: the goal node is given by its position
`p` and parent index `par`; walk to the root, then reverse. -/
noncomputable def extractPath (ns : List RRTNode) (p : ℝ × ℝ) (par : Option ℕ) : List (ℝ × ℝ) :=
  (p :: extractAux ns (ns.length + 1) par).reverse

/-! ## Base planner `RRTPlanner.plan`

Randomness (`sample_random`) is modelled by an explicit list of sampled
target points, one per loop iteration; `max_iterations` is the length of
that list. -/

/-- One iteration of the base planner decides whether the new node is
accepted and whether it captures the goal. -/
noncomputable def rrtLoop (cfg : RRTConfig) (goal : ℝ × ℝ) :
    List RRTNode → List (ℝ × ℝ) → List (ℝ × ℝ)
  | _, [] => []
  | ns, smp :: rest =>
      match ns.get? ((findNearest ns smp.1 smp.2).getD 0) with
      | none => []
      | some nearest =>
          let q := steer cfg.stepSize nearest.x nearest.y smp.1 smp.2
          if isPathCollisionFree cfg.obstacles nearest.x nearest.y q.1 q.2 then
            let ns' := ns ++ [⟨q.1, q.2, some ((findNearest ns smp.1 smp.2).getD 0), 0⟩]
            if distR q goal < cfg.goalThreshold then
              extractPath (ns' ++ [⟨goal.1, goal.2, some ns.length, 0⟩]) goal (some ns.length)
            else rrtLoop cfg goal ns' rest
          else rrtLoop cfg goal ns rest

/-- `RRTPlanner.plan(start, goal)`. -/
noncomputable def rrtPlan (cfg : RRTConfig) (start goal : ℝ × ℝ)
    (samples : List (ℝ × ℝ)) : List (ℝ × ℝ) :=
  rrtLoop cfg goal [initNode start] samples

/-- The goal-capture condition of one base-planner iteration: the steered
segment is collision-free and the new node lies within `goal_threshold`
of the goal. -/
noncomputable def rrtCaptureB (cfg : RRTConfig) (goal : ℝ × ℝ)
    (ns : List RRTNode) (smp : ℝ × ℝ) : Bool :=
  match ns.get? ((findNearest ns smp.1 smp.2).getD 0) with
  | none => false
  | some nearest =>
      let q := steer cfg.stepSize nearest.x nearest.y smp.1 smp.2
      isPathCollisionFree cfg.obstacles nearest.x nearest.y q.1 q.2 &&
        decide (distR q goal < cfg.goalThreshold)

/-! ## `RRTStarPlanner.plan` -/

/-- Loop state of `RRTStarPlanner.plan`: the tree plus the best goal
candidate and its recorded cost (`best_cost` starts at `float('inf')`,
modelled as `none`). -/
structure StarState where
  ns : List RRTNode
  best : Option ℕ
  bestCost : Option ℝ

def initStar (start : ℝ × ℝ) : StarState :=
  ⟨[initNode start], none, none⟩

/-- One candidate consideration of RRT* parent selection: skip the
nearest node itself (`ni`) and candidates without a collision-free
connection; otherwise keep the strictly cheaper of the accumulator and
`get_cost(near) + dist(near, new)`. -/
noncomputable def cpStep (obs : List Circle) (ns : List RRTNode) (q : ℝ × ℝ) (ni : ℕ)
    (acc : ℕ × ℝ) (j : ℕ) : ℕ × ℝ :=
  if j = ni then acc
  else
    match ns.get? j with
    | none => acc
    | some near =>
        if isPathCollisionFree obs near.x near.y q.1 q.2 then
          let c := getCost ns j + Real.sqrt ((q.1 - near.x) ^ 2 + (q.2 - near.y) ^ 2)
          if c < acc.2 then (j, c) else acc
        else acc

/-- Parent selection of RRT*: fold `cpStep` over the near set, starting
from the nearest node and its connection cost. -/
noncomputable def chooseParent (obs : List Circle) (ns : List RRTNode) (q : ℝ × ℝ)
    (nearby : List ℕ) (ini : ℕ × ℝ) : ℕ × ℝ :=
  nearby.foldl (cpStep obs ns q ini.1) ini

/-- One rewiring step: re-parent node `j` to the new node `newIdx` when
the connection is collision-free and strictly cheaper than `j`'s current
walked cost; skip when `j` is the new node's chosen parent. -/
noncomputable def rewireOne (obs : List Circle) (newIdx : ℕ)
    (ns : List RRTNode) (j : ℕ) : List RRTNode :=
  match ns.get? newIdx, ns.get? j with
  | some nw, some near =>
      if nw.parent = some j then ns
      else if isPathCollisionFree obs nw.x nw.y near.x near.y then
        let c := nw.cost + Real.sqrt ((nw.x - near.x) ^ 2 + (nw.y - near.y) ^ 2)
        if c < getCost ns j then
          ns.set j { near with parent := some newIdx, cost := c }
        else ns
      else ns
  | _, _ => ns

/-- The data produced by one RRT* iteration up to (and including) the
insertion of the new node, `none` when the steered segment collides:
steered point `q`, near set, index of the new node, and the node list
right after the append (before rewiring). -/
structure ExtendInfo where
  q : ℝ × ℝ
  nearby : List ℕ
  newIdx : ℕ
  ns1 : List RRTNode

noncomputable def starExtend (cfg : RRTConfig) (s : StarState) (smp : ℝ × ℝ) :
    Option ExtendInfo :=
  match s.ns.get? ((findNearest s.ns smp.1 smp.2).getD 0) with
  | none => none
  | some nearest =>
      let q := steer cfg.stepSize nearest.x nearest.y smp.1 smp.2
      if isPathCollisionFree cfg.obstacles nearest.x nearest.y q.1 q.2 then
        let nearby := findNearby cfg.neighborRadius s.ns q.1 q.2
        let ni := (findNearest s.ns smp.1 smp.2).getD 0
        let ini : ℕ × ℝ :=
          (ni, getCost s.ns ni + Real.sqrt ((q.1 - nearest.x) ^ 2 + (q.2 - nearest.y) ^ 2))
        let bp := chooseParent cfg.obstacles s.ns q nearby ini
        some ⟨q, nearby, s.ns.length, s.ns ++ [⟨q.1, q.2, some bp.1, bp.2⟩]⟩
      else none

/-- One full iteration of `RRTStarPlanner.plan`: extend, rewire every
near node in order, then record the new node as a goal candidate when it
lands within `goal_threshold`, keeping the strictly lowest recorded
cost. -/
noncomputable def starStep (cfg : RRTConfig) (goal : ℝ × ℝ)
    (s : StarState) (smp : ℝ × ℝ) : StarState :=
  match starExtend cfg s smp with
  | none => s
  | some info =>
      let ns2 := info.nearby.foldl (rewireOne cfg.obstacles info.newIdx) info.ns1
      { ns := ns2,
        best :=
          if distR info.q goal < cfg.goalThreshold then
            match s.bestCost with
            | none => some info.newIdx
            | some bc =>
                if (((ns2.get? info.newIdx).map RRTNode.cost).getD 0) < bc then
                  some info.newIdx
                else s.best
          else s.best,
        bestCost :=
          if distR info.q goal < cfg.goalThreshold then
            match s.bestCost with
            | none => some (((ns2.get? info.newIdx).map RRTNode.cost).getD 0)
            | some bc =>
                if (((ns2.get? info.newIdx).map RRTNode.cost).getD 0) < bc then
                  some (((ns2.get? info.newIdx).map RRTNode.cost).getD 0)
                else some bc
          else s.bestCost }

/-- The RRT* main loop runs through the whole iteration budget: a plain
fold, with no early exit. -/
noncomputable def starLoop (cfg : RRTConfig) (goal : ℝ × ℝ)
    (s : StarState) (samples : List (ℝ × ℝ)) : StarState :=
  samples.foldl (starStep cfg goal) s

/-- `RRTStarPlanner.plan(start, goal)`: after the budget is exhausted,
extract the path through the best candidate (the final goal node is not
appended to the tree), or return the empty sequence. -/
noncomputable def starPlan (cfg : RRTConfig) (start goal : ℝ × ℝ)
    (samples : List (ℝ × ℝ)) : List (ℝ × ℝ) :=
  let fin := starLoop cfg goal (initStar start) samples
  match fin.best with
  | some b => extractPath fin.ns goal (some b)
  | none => []

/-- Observation function following the words of the specification: the
cost recorded for each *candidate* goal connection, i.e. for every
iteration whose new node lands within `goal_threshold` of the goal, the
new node's cost right after that iteration's rewiring. -/
noncomputable def starCandidates (cfg : RRTConfig) (goal : ℝ × ℝ) :
    StarState → List (ℝ × ℝ) → List ℝ
  | _, [] => []
  | s, smp :: rest =>
      (match starExtend cfg s smp with
        | none => []
        | some info =>
            if distR info.q goal < cfg.goalThreshold then
              [((((info.nearby.foldl (rewireOne cfg.obstacles info.newIdx) info.ns1).get?
                    info.newIdx).map RRTNode.cost).getD 0)]
            else []) ++
        starCandidates cfg goal (starStep cfg goal s smp) rest

/-- Running strict minimum, mirroring `best_cost` updates
(`if new < best then new`). -/
noncomputable def minFold (a : Option ℝ) (l : List ℝ) : Option ℝ :=
  l.foldl
    (fun acc c =>
      match acc with
      | none => some c
      | some b => if c < b then some c else some b)
    a

/-- The candidate-cost segment contributed by one iteration: the cost
recorded when that iteration's new node lands within `goal_threshold`
(at most one candidate per iteration). -/
noncomputable def candSeg (cfg : RRTConfig) (goal : ℝ × ℝ) (s : StarState)
    (smp : ℝ × ℝ) : List ℝ :=
  match starExtend cfg s smp with
  | none => []
  | some info =>
      if distR info.q goal < cfg.goalThreshold then
        [((((info.nearby.foldl (rewireOne cfg.obstacles info.newIdx) info.ns1).get?
              info.newIdx).map RRTNode.cost).getD 0)]
      else []

/-! ### State traces

Every tree (node-list) state reachable during one `plan` call, including
the states in the middle of an iteration after each individual rewiring
step; used to state the arborescence invariant. -/

noncomputable def starTraceAux (cfg : RRTConfig) (goal : ℝ × ℝ) :
    StarState → List (ℝ × ℝ) → List (List RRTNode)
  | _, [] => []
  | s, smp :: rest =>
      (match starExtend cfg s smp with
        | none => []
        | some info => info.nearby.scanl (rewireOne cfg.obstacles info.newIdx) info.ns1) ++
        starTraceAux cfg goal (starStep cfg goal s smp) rest

/-- All node-list states of an RRT* `plan` run: the initial singleton
tree, then for every iteration the state right after the insertion and
after each individual rewire. -/
noncomputable def starTrace (cfg : RRTConfig) (start goal : ℝ × ℝ)
    (samples : List (ℝ × ℝ)) : List (List RRTNode) :=
  [initNode start] :: starTraceAux cfg goal (initStar start) samples

/-- All node-list states of a base `RRTPlanner.plan` run (after each
append, including the final goal-node append). -/
noncomputable def rrtTraceAux (cfg : RRTConfig) (goal : ℝ × ℝ) :
    List RRTNode → List (ℝ × ℝ) → List (List RRTNode)
  | _, [] => []
  | ns, smp :: rest =>
      match ns.get? ((findNearest ns smp.1 smp.2).getD 0) with
      | none => []
      | some nearest =>
          let q := steer cfg.stepSize nearest.x nearest.y smp.1 smp.2
          if isPathCollisionFree cfg.obstacles nearest.x nearest.y q.1 q.2 then
            let ns' := ns ++ [⟨q.1, q.2, some ((findNearest ns smp.1 smp.2).getD 0), 0⟩]
            if distR q goal < cfg.goalThreshold then
              [ns', ns' ++ [⟨goal.1, goal.2, some ns.length, 0⟩]]
            else ns' :: rrtTraceAux cfg goal ns' rest
          else rrtTraceAux cfg goal ns rest

noncomputable def rrtTrace (cfg : RRTConfig) (start goal : ℝ × ℝ)
    (samples : List (ℝ × ℝ)) : List (List RRTNode) :=
  [initNode start] :: rrtTraceAux cfg goal [initNode start] samples

/-! ## A* planner (astar.py)

The node table `nodes = {(x, y): node}` is embedded as a function
`Coord → Option AEntry`; a node's coordinates are its key, so the
object-valued `parent` reference is a parent *coordinate*.  The open
list is embedded as a list of coordinates; `heapq.heappop` pops a node
of minimal `f = g + h` with unspecified tie order, embedded as the first
element attaining the minimum. -/

abbrev Coord := ℤ × ℤ

structure AEntry where
  g : ℝ
  h : ℝ
  parent : Option Coord

structure AState where
  openL : List Coord
  closed : List Coord
  nodes : Coord → Option AEntry

/-- `AStarPlanner.NEIGHBORS_8`. -/
def NEIGHBORS8 : List (ℤ × ℤ) :=
  [(-1, -1), (-1, 0), (-1, 1), (0, -1), (0, 1), (1, -1), (1, 0), (1, 1)]

/-- `AStarPlanner.NEIGHBORS_4`. -/
def NEIGHBORS4 : List (ℤ × ℤ) :=
  [(-1, 0), (1, 0), (0, -1), (0, 1)]

/-- `AStarPlanner.heuristic`: Euclidean distance between cells. -/
noncomputable def heuristic (x1 y1 x2 y2 : ℤ) : ℝ :=
  Real.sqrt (((x2 - x1 : ℤ) : ℝ) ^ 2 + ((y2 - y1 : ℤ) : ℝ) ^ 2)

/-- Priority `f = g + h` of a coordinate in the node table (only queried
for coordinates present in the table). -/
noncomputable def fVal (nodes : Coord → Option AEntry) (c : Coord) : ℝ :=
  match nodes c with
  | some e => e.g + e.h
  | none => 0

/-- Select the first coordinate of strictly minimal `f` and the open
list with that occurrence removed (`heapq.heappop`). -/
noncomputable def popMinAux (nodes : Coord → Option AEntry) :
    Coord → List Coord → Coord × List Coord
  | c, [] => (c, [])
  | c, d :: rest =>
      if fVal nodes d < fVal nodes c then
        let r := popMinAux nodes d rest
        (r.1, c :: r.2)
      else
        let r := popMinAux nodes c rest
        (r.1, d :: r.2)

noncomputable def popMin (nodes : Coord → Option AEntry) :
    List Coord → Option (Coord × List Coord)
  | [] => none
  | c :: rest => some (popMinAux nodes c rest)

/-- Step cost of a neighbor offset: `sqrt(2)` for diagonal moves, `1`
for orthogonal moves. -/
noncomputable def stepCost (d : ℤ × ℤ) : ℝ :=
  if d.1 ≠ 0 ∧ d.2 ≠ 0 then Real.sqrt 2 else 1

/-- `current.g`: the stored g-value of a coordinate (always present when
queried by the search). -/
noncomputable def gOf (nodes : Coord → Option AEntry) (c : Coord) : ℝ :=
  match nodes c with
  | some e => e.g
  | none => 0

/-- Store an entry for coordinate `n` and push `n` onto the open list
(`heapq.heappush`). -/
noncomputable def relaxUpd (st : AState) (n : Coord) (eNew : AEntry) : AState :=
  { st with nodes := fun c => if c = n then some eNew else st.nodes c, openL := st.openL ++ [n] }

/-- Relaxation of one neighbor offset `d` of the popped node `m`
(the body of the `for nx, ny, cost in self.get_neighbors(current)` loop,
including the `is_free` filter of `get_neighbors` and the closed-set
skip): a known neighbor is updated when `new_g` strictly improves its
`g` (keeping its `h`), an unknown neighbor is created with a fresh
heuristic; both are pushed onto the open list. -/
noncomputable def relax (grid : GridMap) (goal : Coord) (m : Coord)
    (st : AState) (d : ℤ × ℤ) : AState :=
  if isFree grid (m.1 + d.1) (m.2 + d.2) ∧ (m.1 + d.1, m.2 + d.2) ∉ st.closed then
    match st.nodes (m.1 + d.1, m.2 + d.2) with
    | some e =>
        if gOf st.nodes m + stepCost d < e.g then
          relaxUpd st (m.1 + d.1, m.2 + d.2)
            { e with g := gOf st.nodes m + stepCost d, parent := some m }
        else st
    | none =>
        relaxUpd st (m.1 + d.1, m.2 + d.2)
          ⟨gOf st.nodes m + stepCost d,
            heuristic (m.1 + d.1) (m.2 + d.2) goal.1 goal.2, some m⟩
  else st

/-- Expansion of a popped node: add it to the closed set, then relax all
neighbor offsets in order. -/
noncomputable def expand (grid : GridMap) (goal : Coord) (nbrs : List (ℤ × ℤ))
    (st : AState) (m : Coord) : AState :=
  nbrs.foldl (relax grid goal m) { st with closed := m :: st.closed }

/-- `AStarPlanner._reconstruct_path`: follow parent links collecting
coordinates, then reverse.  The Python `while current is not None` walk
terminates because parent chains are acyclic; the embedding takes fuel,
which the caller chooses large enough (proved sufficient from the search
invariant). -/
noncomputable def reconstructAux (nodes : Coord → Option AEntry) : ℕ → Coord → List Coord
  | 0, _ => []
  | fuel + 1, c =>
      c ::
        (match nodes c with
          | some e =>
              match e.parent with
              | some p => reconstructAux nodes fuel p
              | none => []
          | none => [])

noncomputable def reconstructA (nodes : Coord → Option AEntry) (fuel : ℕ) (c : Coord) :
    List Coord :=
  (reconstructAux nodes fuel c).reverse

/-- The A* main loop.  The Python `while open_list` loop has no iteration
cap; its termination is extrinsic, so the embedding unrolls it on fuel
and every theorem below is proved for all fuel values.  The
reconstruction walk gets fuel `closed.length + 2`, shown sufficient by
the invariant (parent chains visit distinct closed coordinates). -/
noncomputable def aLoop (grid : GridMap) (goal : Coord) (nbrs : List (ℤ × ℤ)) :
    ℕ → AState → List Coord
  | 0, _ => []
  | fuel + 1, st =>
      match popMin st.nodes st.openL with
      | none => []
      | some (m, rest) =>
          if m = goal then reconstructA st.nodes (st.closed.length + 2) m
          else aLoop grid goal nbrs fuel (expand grid goal nbrs { st with openL := rest } m)

/-- The state right after `plan` creates the start node and the
open/closed structures. -/
noncomputable def initAState (start goal : Coord) : AState :=
  { openL := [start], closed := [],
    nodes := fun c =>
      if c = start then some ⟨0, heuristic start.1 start.2 goal.1 goal.2, none⟩ else none }

/-- `AStarPlanner.plan(start, goal)`: blocked start or goal fails
immediately (before any search state is touched) with the empty
sequence; otherwise run the search loop. -/
noncomputable def planAStar (fuel : ℕ) (grid : GridMap) (allowDiagonal : Bool)
    (start goal : Coord) : List Coord :=
  bif isFree grid start.1 start.2 then
    bif isFree grid goal.1 goal.2 then
      aLoop grid goal (bif allowDiagonal then NEIGHBORS8 else NEIGHBORS4) fuel
        (initAState start goal)
    else []
  else []

/-! ## Path smoothing (`AStarPlanner.smooth_path`) -/

/-- Python `int()` applied to a rational value: truncation toward
zero. -/
def pyTrunc (q : ℚ) : ℤ :=
  if q < 0 then -(⌊-q⌋) else ⌊q⌋

/-- `AStarPlanner._has_line_of_sight(p1, p2)`: sample the segment at
`max(|dx|, |dy|) + 1` parameters and require every truncated sample cell
to be free.  The float arithmetic on integer endpoints is exact, so the
samples are rationals. -/
def hasLineOfSight (grid : GridMap) (p1 p2 : Coord) : Bool :=
  let steps := max (p2.1 - p1.1).natAbs (p2.2 - p1.2).natAbs
  if steps = 0 then true
  else
    (List.range (steps + 1)).all fun (i : ℕ) =>
      let t : ℚ := (i : ℚ) / (steps : ℚ)
      isFree grid (pyTrunc ((p1.1 : ℚ) + t * ((p2.1 : ℚ) - (p1.1 : ℚ))))
        (pyTrunc ((p1.2 : ℚ) + t * ((p2.2 : ℚ) - (p1.2 : ℚ))))

/-- The inner `while j > i + 1` loop of `smooth_path`: scan `j` downward
from `len(path) - 1` until line of sight is found or `j` reaches
`i + 1`. -/
def chooseJAux (grid : GridMap) (path : List Coord) (i : ℕ) (j : ℕ) : ℕ :=
  if _h : j ≤ i + 1 then j
  else if hasLineOfSight grid (path.getD i ((0 : ℤ), (0 : ℤ)))
      (path.getD j ((0 : ℤ), (0 : ℤ))) then j
  else chooseJAux grid path i (j - 1)
termination_by j
decreasing_by omega

theorem chooseJAux_ge (grid : GridMap) (path : List Coord) (i : ℕ) :
    ∀ j, i + 1 ≤ j → i + 1 ≤ chooseJAux grid path i j := by
  intro j
  induction j using Nat.strong_induction_on with
  | _ j ih =>
      intro hj
      rw [chooseJAux]
      split
      · omega
      · split
        · omega
        · have hj2 : i + 2 ≤ j := by omega
          exact ih (j - 1) (by omega) (by omega)

theorem chooseJAux_le (grid : GridMap) (path : List Coord) (i : ℕ) :
    ∀ j, chooseJAux grid path i j ≤ j := by
  intro j
  induction j using Nat.strong_induction_on with
  | _ j ih =>
      rw [chooseJAux]
      split
      · omega
      · split
        · omega
        · exact le_trans (ih (j - 1) (by omega)) (by omega)

/-- The outer `while i < len(path) - 1` loop of `smooth_path`,
collecting the appended waypoints. -/
def smoothAux (grid : GridMap) (path : List Coord) (i : ℕ) : List Coord :=
  if h : i < path.length - 1 then
    let j := chooseJAux grid path i (path.length - 1)
    path.getD j ((0 : ℤ), (0 : ℤ)) :: smoothAux grid path j
  else []
termination_by path.length - 1 - i
decreasing_by
  have := chooseJAux_ge grid path i (path.length - 1) (by omega)
  omega

/-- `AStarPlanner.smooth_path(path)` (the `iterations` parameter is
unused by the source loop). -/
def smoothPath (grid : GridMap) (path : List Coord) : List Coord :=
  if path.length ≤ 2 then path
  else path.getD 0 ((0 : ℤ), (0 : ℤ)) :: smoothAux grid path 0

/-! ## Helper lemmas -/

theorem distR_nonneg (p q : ℝ × ℝ) : 0 ≤ distR p q :=
  Real.sqrt_nonneg _

/-- Newly blocked cells of `addRectangle` are always inside the grid:
the slice start is clamped at `0` and the (possibly wrapped) slice end
never exceeds the axis length. -/
theorem addRectangle_blocked_sub (g : GridMap) (x1 y1 x2 y2 cx cy : ℤ)
    (hb : (addRectangle g x1 y1 x2 y2).blocked cx cy = true) :
    g.blocked cx cy = true ∨
      (0 ≤ cx ∧ cx < g.width ∧ 0 ≤ cy ∧ cy < g.height) := by
  unfold addRectangle at hb
  simp only at hb
  split at hb
  · rename_i hcond
    right
    obtain ⟨h1, h2, h3, h4⟩ := hcond
    refine ⟨le_trans (le_max_left _ _) h1, ?_, le_trans (le_max_left _ _) h3, ?_⟩
    · calc cx < pySliceEnd g.width (min g.width (max x1 x2)) := h2
        _ ≤ g.width := by
            unfold pySliceEnd
            split
            · omega
            · exact min_le_left _ _
    · calc cy < pySliceEnd g.height (min g.height (max y1 y2)) := h4
        _ ≤ g.height := by
            unfold pySliceEnd
            split
            · omega
            · exact min_le_left _ _
  · exact Or.inl hb

/-! ## Claim C9 -/

/-- C9: the point-collision predicate reports a point free iff for every
circular obstacle the Euclidean distance from the point to the circle's
center is at least the circle's radius; in particular a point exactly on
a boundary (distance equal to the radius) is free. -/
theorem c9_point_free_iff (obs : List Circle) (x y : ℝ) :
    isCollisionFree obs x y = true ↔
      ∀ c ∈ obs, c.2.2 ≤ distR (x, y) (c.1, c.2.1) := by
  simp [isCollisionFree, List.all_eq_true, not_lt]

/-! ## Claim C7 -/

/-- C7: evaluation of `add_rectangle` at the failing input
`add_rectangle(-5, 0, -3, 5)` on a fresh 10×10 grid.  The min/max
normalisation produces the slice bounds `x ∈ [0, -3)`, whose
intersection with the grid is empty, so no cell should change; but the
numpy slice `grid[0:5, 0:-3]` wraps the negative endpoint around to
column `10 - 3 = 7` and blocks cells such as `(0, 0)` that lie outside
the clamped rectangle. -/
theorem c7_addRectangle_wraparound :
    isFree (mkGrid 10 10) 0 0 = true ∧
      isFree (addRectangle (mkGrid 10 10) (-5) 0 (-3) 5) 0 0 = false ∧
      ¬(max 0 (min (-5 : ℤ) (-3)) ≤ (0 : ℤ) ∧ (0 : ℤ) < min (10 : ℤ) (max (-5) (-3))) := by
  refine ⟨by decide, ?_, by decide⟩
  decide

/-! ## Claim C10 -/

/-- C10 counterexample: on a 2×2 grid, `add_random_obstacles(count=1,
size=3)` calls `np.random.randint(0, 2 - 3)`, which raises `ValueError`
(`none`): the operation does not complete normally. -/
theorem c10_randint_raises :
    addRandomObstacles (mkGrid 2 2) 3 [(0, 0)] = none := by
  rfl

/-- C10 (amended): `add_obstacle`, `add_rectangle`, `is_free` and
`is_valid` are total for all integer arguments, out-of-bounds inputs
being handled by no-ops and `false` results; `add_random_obstacles`
completes normally whenever `count = 0` or `size` is strictly smaller
than both grid dimensions, and then every cell it newly blocks lies
inside the grid (each placed rectangle fits). -/
theorem c10_amended (g : GridMap) (size : ℤ) (draws : List (ℕ × ℕ))
    (h1 : size < g.width) (h2 : size < g.height) :
    (∃ g', addRandomObstacles g size draws = some g' ∧
        ∀ cx cy, g'.blocked cx cy = true →
          g.blocked cx cy = true ∨
            (0 ≤ cx ∧ cx < g.width ∧ 0 ≤ cy ∧ cy < g.height)) ∧
      (∀ x y : ℤ, isValid g x y = false →
        addObstacle g x y = g ∧ isFree g x y = false) := by
  constructor
  · induction draws generalizing g with
    | nil => exact ⟨g, rfl, fun cx cy hb => Or.inl hb⟩
    | cons d rest ih =>
        have hw : ¬(g.width - size ≤ 0) := by omega
        have hh : ¬(g.height - size ≤ 0) := by omega
        have hrec := ih (addRectangle g ((d.1 : ℤ) % (g.width - size))
          ((d.2 : ℤ) % (g.height - size))
          ((d.1 : ℤ) % (g.width - size) + size) ((d.2 : ℤ) % (g.height - size) + size))
          (by simp [addRectangle]; omega) (by simp [addRectangle]; omega)
        obtain ⟨g', hg', hcells⟩ := hrec
        refine ⟨g', ?_, ?_⟩
        · obtain ⟨rx, ry⟩ := d
          simp only [addRandomObstacles, npRandint, if_neg hw, if_neg hh,
            Option.bind_eq_bind, Option.some_bind]
          exact hg'
        · intro cx cy hb
          rcases hcells cx cy hb with hold | hin
          · rcases addRectangle_blocked_sub g _ _ _ _ cx cy hold with h | h
            · exact Or.inl h
            · exact Or.inr (by simpa [addRectangle] using h)
          · exact Or.inr (by simpa [addRectangle] using hin)
  · intro x y hv
    refine ⟨?_, ?_⟩
    · unfold addObstacle
      simp [hv]
    · unfold isFree
      simp [hv]

/-! ## Claim C2 -/

/-- C2: if the start or the goal cell is not free (blocked or out of
bounds), `AStarPlanner.plan` fails immediately — before any search state
is even created — and returns the empty sequence; the failure is an
ordinary return value, not an exception (the embedding is a total
function into waypoint lists). -/
theorem c2_blocked_endpoint_empty (fuel : ℕ) (grid : GridMap) (allowDiagonal : Bool)
    (s t : Coord)
    (h : isFree grid s.1 s.2 = false ∨ isFree grid t.1 t.2 = false) :
    planAStar fuel grid allowDiagonal s t = [] := by
  unfold planAStar
  cases hs : isFree grid s.1 s.2 with
  | false => rfl
  | true =>
      rcases h with h | h
      · rw [hs] at h; cases h
      · rw [h]; rfl

/-- C2 witness: a concrete 3×3 grid whose goal cell `(2, 2)` is blocked;
`plan` returns the empty sequence. -/
theorem c2_blocked_endpoint_empty_witness :
    isFree (addObstacle (mkGrid 3 3) 2 2) (2, 2).1 (2, 2).2 = false ∧
      planAStar 9 (addObstacle (mkGrid 3 3) 2 2) true ((0 : ℤ), (0 : ℤ)) (2, 2) = [] :=
  ⟨by decide, c2_blocked_endpoint_empty 9 _ true _ _ (Or.inr (by decide))⟩

/-! ## Claim C3 -/

/-- Unfolding equation for the outer smoothing loop. -/
theorem smoothAux_eq (grid : GridMap) (p : List Coord) (i : ℕ) :
    smoothAux grid p i =
      if i < p.length - 1 then
        p.getD (chooseJAux grid p i (p.length - 1)) ((0 : ℤ), (0 : ℤ)) ::
          smoothAux grid p (chooseJAux grid p i (p.length - 1))
      else [] := by
  by_cases h : i < p.length - 1
  · conv_lhs => rw [smoothAux]
    rw [dif_pos h, if_pos h]
  · conv_lhs => rw [smoothAux]
    rw [dif_neg h, if_neg h]

theorem smoothAux_sublist (grid : GridMap) (p : List Coord) :
    ∀ k i, p.length - 1 - i ≤ k → (smoothAux grid p i).Sublist (p.drop (i + 1)) := by
  intro k
  induction k with
  | zero =>
      intro i hk
      rw [smoothAux_eq]
      rw [if_neg (by omega)]
      exact List.nil_sublist _
  | succ k ih =>
      intro i hk
      rw [smoothAux_eq]
      by_cases h : i < p.length - 1
      · rw [if_pos h]
        have hj1 : i + 1 ≤ chooseJAux grid p i (p.length - 1) :=
          chooseJAux_ge grid p i _ (by omega)
        have hj2 : chooseJAux grid p i (p.length - 1) ≤ p.length - 1 :=
          chooseJAux_le grid p i _
        set j := chooseJAux grid p i (p.length - 1) with hj
        have hjlt : j < p.length := by omega
        have hdropj : p.drop j = p.getD j ((0 : ℤ), (0 : ℤ)) :: p.drop (j + 1) := by
          rw [List.getD_eq_getElem p _ hjlt]
          exact List.drop_eq_getElem_cons hjlt
        have hsub : (smoothAux grid p j).Sublist (p.drop (j + 1)) := ih j (by omega)
        have hcons : (p.getD j ((0 : ℤ), (0 : ℤ)) :: smoothAux grid p j).Sublist (p.drop j) := by
          rw [hdropj]
          exact hsub.cons₂ _
        refine hcons.trans ?_
        have hjsplit : p.drop j = (p.drop (i + 1)).drop (j - (i + 1)) := by
          rw [List.drop_drop]
          congr 1
          omega
        rw [hjsplit]
        exact List.drop_sublist _ _
      · rw [if_neg h]
        exact List.nil_sublist _

theorem smoothAux_getLast (grid : GridMap) (p : List Coord) :
    ∀ k i, p.length - 1 - i ≤ k → i < p.length - 1 →
      (smoothAux grid p i).getLast? = p.getLast? := by
  intro k
  induction k with
  | zero => intro i hk hi; omega
  | succ k ih =>
      intro i hk hi
      rw [smoothAux_eq, if_pos hi]
      have hj1 : i + 1 ≤ chooseJAux grid p i (p.length - 1) :=
        chooseJAux_ge grid p i _ (by omega)
      have hj2 : chooseJAux grid p i (p.length - 1) ≤ p.length - 1 :=
        chooseJAux_le grid p i _
      set j := chooseJAux grid p i (p.length - 1) with hj
      by_cases hjend : j < p.length - 1
      · have hrec := ih j (by omega) hjend
        rw [smoothAux_eq, if_pos hjend] at hrec ⊢
        rw [List.getLast?_cons_cons]
        exact hrec
      · have hjeq : j = p.length - 1 := by omega
        have hnil : smoothAux grid p j = [] := by
          rw [smoothAux_eq, if_neg (by omega)]
        have hlt2 : p.length - 1 < p.length := by omega
        have hswap : p.getD j ((0 : ℤ), (0 : ℤ)) = p.getD (p.length - 1) ((0 : ℤ), (0 : ℤ)) := by
          rw [hjeq]
        rw [hnil, hswap, List.getD_eq_getElem p _ hlt2, List.getLast?_eq_getElem? p,
          List.getElem?_eq_getElem hlt2]
        simp

/-- C3: `smooth_path(p)` is a subsequence of `p` (elements selected at
strictly increasing indices), its first and last elements agree with
those of `p`, and its length is at most `len(p)`. -/
theorem c3_smooth_path_law (grid : GridMap) (p : List Coord) :
    (smoothPath grid p).Sublist p ∧
      (smoothPath grid p).head? = p.head? ∧
      (smoothPath grid p).getLast? = p.getLast? ∧
      (smoothPath grid p).length ≤ p.length := by
  by_cases hlen : p.length ≤ 2
  · unfold smoothPath
    rw [if_pos hlen]
    exact ⟨List.Sublist.refl p, rfl, rfl, le_rfl⟩
  · have hlen3 : 3 ≤ p.length := by omega
    have hne : p ≠ [] := by
      intro h
      rw [h] at hlen3
      simp at hlen3
    have h0 : (0 : ℕ) < p.length := by omega
    have hval : smoothPath grid p = p.getD 0 ((0 : ℤ), (0 : ℤ)) :: smoothAux grid p 0 := by
      unfold smoothPath
      rw [if_neg hlen]
    have hdrop0 : p = p.getD 0 ((0 : ℤ), (0 : ℤ)) :: p.drop 1 := by
      rw [List.getD_eq_getElem p _ h0]
      conv_lhs => rw [← List.drop_zero p]
      exact List.drop_eq_getElem_cons h0
    have hsub : (smoothPath grid p).Sublist p := by
      rw [hval]
      conv_rhs => rw [hdrop0]
      exact (smoothAux_sublist grid p p.length 0 (by omega)).cons₂ _
    refine ⟨hsub, ?_, ?_, hsub.length_le⟩
    · rw [hval]
      simp only [List.head?_cons]
      rw [List.getD_eq_getElem p _ h0, List.getElem_zero h0, List.head?_eq_head hne]
    · have h01 : (0 : ℕ) < p.length - 1 := by omega
      have hlast := smoothAux_getLast grid p p.length 0 (by omega) h01
      have hne2 : smoothAux grid p 0 ≠ [] := by
        rw [smoothAux_eq, if_pos h01]
        simp
      rcases List.exists_cons_of_ne_nil hne2 with ⟨a, l, hal⟩
      rw [hval, hal]
      rw [hal] at hlast
      rw [List.getLast?_cons_cons]
      exact hlast

/-! ## Claim C8 -/

theorem pathSamples_eq (x1 y1 x2 y2 : ℝ) :
    pathSamples x1 y1 x2 y2 =
      (List.range (segSteps x1 y1 x2 y2 + 1)).map fun (i : ℕ) =>
        (x1 + (i : ℝ) / (segSteps x1 y1 x2 y2 : ℝ) * (x2 - x1),
         y1 + (i : ℝ) / (segSteps x1 y1 x2 y2 : ℝ) * (y2 - y1)) := rfl

/-- C8 counterexample: for the unit-axis segment from `(0, 0)` to
`(10, 0)` — Euclidean length exactly `10` — the code samples
`max(2, int(10)) + 1 = 11` points, not the `max(2, round(10)) = 10`
samples the claim states. -/
theorem c8_sample_count_counterexample :
    (pathSamples 0 0 10 0).length = 11 ∧
      max 2 (round (distR ((0 : ℝ), (0 : ℝ)) ((10 : ℝ), (0 : ℝ)))) = (10 : ℤ) := by
  have hd : distR ((0 : ℝ), (0 : ℝ)) ((10 : ℝ), (0 : ℝ)) = 10 := by
    unfold distR
    norm_num
    rw [show (100 : ℝ) = 10 ^ 2 by norm_num]
    exact Real.sqrt_sq (by norm_num)
  have hsteps : segSteps 0 0 10 0 = 10 := by
    unfold segSteps
    rw [hd]
    rw [show (10 : ℝ) = ((10 : ℤ) : ℝ) by norm_num, Int.floor_intCast]
    rfl
  constructor
  · rw [pathSamples_eq, List.length_map, List.length_range, hsteps]
  · rw [hd]
    rw [show (10 : ℝ) = ((10 : ℤ) : ℝ) by norm_num, round_intCast]
    rfl

/-- C8 (amended): the segment check discretizes the segment into
`max(2, int(length)) + 1` evenly spaced samples — the parameter-`i/steps`
points for `i = 0 … steps`, still at least one sample per unit of
Euclidean length — and returns true iff every one of those samples is
point-free. -/
theorem c8_amended_segment_check (obs : List Circle) (x1 y1 x2 y2 : ℝ) :
    (pathSamples x1 y1 x2 y2).length = max 2 (⌊distR (x1, y1) (x2, y2)⌋.toNat) + 1 ∧
      distR (x1, y1) (x2, y2) ≤ ((pathSamples x1 y1 x2 y2).length : ℝ) ∧
      (isPathCollisionFree obs x1 y1 x2 y2 = true ↔
        ∀ i : ℕ, i ≤ segSteps x1 y1 x2 y2 →
          isCollisionFree obs
            (x1 + (i : ℝ) / (segSteps x1 y1 x2 y2 : ℝ) * (x2 - x1))
            (y1 + (i : ℝ) / (segSteps x1 y1 x2 y2 : ℝ) * (y2 - y1)) = true) := by
  have hlen : (pathSamples x1 y1 x2 y2).length = segSteps x1 y1 x2 y2 + 1 := by
    rw [pathSamples_eq, List.length_map, List.length_range]
  refine ⟨by rw [hlen]; rfl, ?_, ?_⟩
  · rw [hlen]
    set d := distR (x1, y1) (x2, y2) with hd
    have hd0 : 0 ≤ d := distR_nonneg _ _
    have hfl : (0 : ℤ) ≤ ⌊d⌋ := Int.floor_nonneg.mpr hd0
    have h1 : d < (⌊d⌋.toNat : ℝ) + 1 := by
      have h2 := Int.lt_floor_add_one d
      have h3 : ((⌊d⌋.toNat : ℤ) : ℝ) = ((⌊d⌋ : ℤ) : ℝ) := by
        rw [Int.toNat_of_nonneg hfl]
      push_cast at h3 ⊢
      linarith
    have h5 : ⌊d⌋.toNat ≤ segSteps x1 y1 x2 y2 := by
      unfold segSteps
      rw [← hd]
      exact le_max_right _ _
    have h6 : (⌊d⌋.toNat : ℝ) ≤ (segSteps x1 y1 x2 y2 : ℝ) := by exact_mod_cast h5
    push_cast
    linarith
  · unfold isPathCollisionFree
    rw [pathSamples_eq]
    simp only [List.all_eq_true, List.mem_map, List.mem_range, forall_exists_index, and_imp]
    constructor
    · intro hall i hi
      have hres := hall (x1 + (i : ℝ) / (segSteps x1 y1 x2 y2 : ℝ) * (x2 - x1),
        y1 + (i : ℝ) / (segSteps x1 y1 x2 y2 : ℝ) * (y2 - y1)) i (Nat.lt_succ_of_le hi) rfl
      exact hres
    · intro hi p i hir hpi
      subst hpi
      exact hi i (Nat.lt_succ_iff.mp hir)

/-! ## Claim C4 -/

theorem steer_eq (st fx fy tx ty : ℝ) :
    steer st fx fy tx ty =
      if Real.sqrt ((tx - fx) ^ 2 + (ty - fy) ^ 2) < st then (tx, ty)
      else if Real.sqrt ((tx - fx) ^ 2 + (ty - fy) ^ 2) = 0 then (fx + st, fy)
      else
        (fx + st * ((tx - fx) / Real.sqrt ((tx - fx) ^ 2 + (ty - fy) ^ 2)),
         fy + st * ((ty - fy) / Real.sqrt ((tx - fx) ^ 2 + (ty - fy) ^ 2))) := rfl

/-- C4 counterexample: `steer` is a method of a planner whose
`step_size` is not validated at construction; with `step_size = -1` and
target equal to the source, the steered point lies at distance `1`,
which is not at most `step_size`.  (`dist = 0` is not `< -1`, so the
`else` branch runs with `arctan2(0, 0) = 0` and moves `step_size` along
`(1, 0)`.) -/
theorem c4_steer_counterexample :
    distR (steer (-1) 0 0 0 0) ((0 : ℝ), (0 : ℝ)) = 1 ∧
      ¬(distR (steer (-1) 0 0 0 0) ((0 : ℝ), (0 : ℝ)) ≤ (-1 : ℝ)) := by
  have hzero : Real.sqrt (((0 : ℝ) - 0) ^ 2 + ((0 : ℝ) - 0) ^ 2) = 0 := by
    norm_num
  have hs : steer (-1) 0 0 0 0 = ((-1 : ℝ), (0 : ℝ)) := by
    rw [steer_eq, if_neg (by rw [hzero]; norm_num), if_pos hzero]
    norm_num
  have hd : distR ((-1 : ℝ), (0 : ℝ)) ((0 : ℝ), (0 : ℝ)) = 1 := by
    unfold distR
    norm_num
  rw [hs, hd]
  norm_num

/-- C4 (amended): for a nonnegative `step_size` — which every planner
configuration used by the source has, `step_size` being unvalidated but
intended positive — the steered point lies at Euclidean distance at most
`step_size` from `from_node`; if the target is strictly closer than
`step_size` it is returned exactly, and otherwise the steered point lies
at distance exactly `step_size` from `from_node`, along the direction
from `from_node` to the target. -/
theorem c4_amended_steering (st fx fy tx ty : ℝ) (h : 0 ≤ st) :
    distR (steer st fx fy tx ty) (fx, fy) ≤ st ∧
      (distR (tx, ty) (fx, fy) < st → steer st fx fy tx ty = (tx, ty)) ∧
      (st ≤ distR (tx, ty) (fx, fy) →
        distR (steer st fx fy tx ty) (fx, fy) = st ∧
        ∃ t : ℝ, 0 ≤ t ∧ (steer st fx fy tx ty).1 - fx = t * (tx - fx) ∧
          (steer st fx fy tx ty).2 - fy = t * (ty - fy)) := by
  have hdist : distR (tx, ty) (fx, fy) = Real.sqrt ((tx - fx) ^ 2 + (ty - fy) ^ 2) := rfl
  by_cases hlt : Real.sqrt ((tx - fx) ^ 2 + (ty - fy) ^ 2) < st
  · have hs : steer st fx fy tx ty = (tx, ty) := by rw [steer_eq, if_pos hlt]
    refine ⟨?_, fun _ => hs,
      fun hge => absurd hlt (by intro hc; rw [hdist] at hge; linarith)⟩
    rw [hs, hdist]
    exact le_of_lt hlt
  · by_cases hz : Real.sqrt ((tx - fx) ^ 2 + (ty - fy) ^ 2) = 0
    · have hst : st = 0 := by
        have : st ≤ 0 := by rw [hz] at hlt; linarith [not_lt.mp hlt]
        linarith
      have hs : steer st fx fy tx ty = (fx + st, fy) := by
        rw [steer_eq, if_neg hlt, if_pos hz]
      have hd2 : distR (fx + st, fy) (fx, fy) = 0 := by
        unfold distR
        rw [hst]
        norm_num
      refine ⟨?_, ?_, ?_⟩
      · rw [hs, hd2, hst]
      · intro hlt2
        rw [hdist, hz] at hlt2
        rw [hst] at hlt2
        exact absurd hlt2 (by norm_num)
      · intro _
        refine ⟨by rw [hs, hd2, hst], 0, le_rfl, ?_, ?_⟩
        · rw [hs, hst]; ring
        · rw [hs]; ring
    · have hpos : 0 < Real.sqrt ((tx - fx) ^ 2 + (ty - fy) ^ 2) :=
        lt_of_le_of_ne (Real.sqrt_nonneg _) (Ne.symm hz)
      set d := Real.sqrt ((tx - fx) ^ 2 + (ty - fy) ^ 2) with hdd
      have hs : steer st fx fy tx ty =
          (fx + st * ((tx - fx) / d), fy + st * ((ty - fy) / d)) := by
        rw [steer_eq, if_neg hlt, if_neg hz]
      have hsq : d ^ 2 = (tx - fx) ^ 2 + (ty - fy) ^ 2 := Real.sq_sqrt (by positivity)
      have hne : d ≠ 0 := ne_of_gt hpos
      have harg : (fx + st * ((tx - fx) / d) - fx) ^ 2 + (fy + st * ((ty - fy) / d) - fy) ^ 2
          = st ^ 2 := by
        have h1 : fx + st * ((tx - fx) / d) - fx = st * ((tx - fx) / d) := by ring
        have h2 : fy + st * ((ty - fy) / d) - fy = st * ((ty - fy) / d) := by ring
        rw [h1, h2, mul_pow, mul_pow, div_pow, div_pow, ← mul_div_assoc, ← mul_div_assoc,
          div_add_div_same, ← mul_add, ← hsq, mul_div_assoc, div_self (pow_ne_zero 2 hne),
          mul_one]
      have hdval : distR (steer st fx fy tx ty) (fx, fy) = st := by
        rw [hs]
        show Real.sqrt
            ((fx + st * ((tx - fx) / d) - fx) ^ 2 + (fy + st * ((ty - fy) / d) - fy) ^ 2) = st
        rw [harg]
        exact Real.sqrt_sq h
      refine ⟨le_of_eq hdval, ?_, ?_⟩
      · intro hlt2
        rw [hdist] at hlt2
        exact absurd hlt2 hlt
      · intro _
        refine ⟨hdval, st / d, by positivity, ?_, ?_⟩
        · rw [hs]
          show fx + st * ((tx - fx) / d) - fx = st / d * (tx - fx)
          ring
        · rw [hs]
          show fy + st * ((ty - fy) / d) - fy = st / d * (ty - fy)
          ring

/-- C4 witness: the amended theorem applied at `step_size = 5`,
`from_node = (0, 0)`, target `(3, 4)`. -/
theorem c4_amended_steering_witness :
    (0 : ℝ) ≤ 5 ∧
      (distR (steer 5 0 0 3 4) ((0 : ℝ), (0 : ℝ)) ≤ 5 ∧
        (distR ((3 : ℝ), (4 : ℝ)) ((0 : ℝ), (0 : ℝ)) < 5 → steer 5 0 0 3 4 = (3, 4)) ∧
        (5 ≤ distR ((3 : ℝ), (4 : ℝ)) ((0 : ℝ), (0 : ℝ)) →
          distR (steer 5 0 0 3 4) ((0 : ℝ), (0 : ℝ)) = 5 ∧
          ∃ t : ℝ, 0 ≤ t ∧ (steer 5 0 0 3 4).1 - 0 = t * (3 - 0) ∧
            (steer 5 0 0 3 4).2 - 0 = t * (4 - 0))) :=
  ⟨by norm_num, c4_amended_steering 5 0 0 3 4 (by norm_num)⟩

/-! ## Parent chains

Generic machinery for the parent-link graphs of both planners: a parent
map `pm` sends a key to its parent key (or `none` at a root).  `PChain
pm k l` says that `l` is the full parent chain from `k` down to a root;
since parents are deterministic the chain is unique, and existence of a
chain for every key is exactly acyclicity of the parent graph. -/

section Chains

variable {K : Type}

inductive PChain (pm : K → Option K) : K → List K → Prop
  | root : ∀ k, pm k = none → PChain pm k [k]
  | step : ∀ k j l, pm k = some j → PChain pm j l → PChain pm k (k :: l)

theorem PChain_shape {pm : K → Option K} {k : K} {l : List K}
    (h : PChain pm k l) : ∃ t, l = k :: t := by
  cases h with
  | root k hk => exact ⟨[], rfl⟩
  | step k j l hk hj => exact ⟨l, rfl⟩

theorem PChain_unique {pm : K → Option K} {k : K} {l l' : List K}
    (h : PChain pm k l) (h' : PChain pm k l') : l = l' := by
  induction h generalizing l' with
  | root k hk =>
      cases h' with
      | root _ _ => rfl
      | step _ j m hk' hj => rw [hk] at hk'; cases hk'
  | step k j m hk hj ih =>
      cases h' with
      | root _ hk' => rw [hk] at hk'; cases hk'
      | step _ j' m' hk' hj' =>
          rw [hk] at hk'
          injection hk' with hjj
          subst hjj
          rw [ih hj']

/-- Sum of a weight function over the consecutive pairs of a chain. -/
noncomputable def chainWeight (w : K → K → ℝ) : List K → ℝ
  | [] => 0
  | [_] => 0
  | a :: b :: rest => w a b + chainWeight w (b :: rest)

theorem chainWeight_nonneg {w : K → K → ℝ} (hw : ∀ a b, 0 ≤ w a b) :
    ∀ l : List K, 0 ≤ chainWeight w l := by
  intro l
  induction l with
  | nil => exact le_refl 0
  | cons a rest ih =>
      cases rest with
      | nil => exact le_refl 0
      | cons b rest2 =>
          show 0 ≤ w a b + chainWeight w (b :: rest2)
          exact add_nonneg (hw a b) ih

/-- Every member of a chain has its own chain, of no greater length and
(for nonnegative weights) no greater weight. -/
theorem PChain_mem_suffix {pm : K → Option K} {w : K → K → ℝ}
    (hw : ∀ a b, 0 ≤ w a b) {k : K} {l : List K}
    (h : PChain pm k l) :
    ∀ j ∈ l, ∃ s, PChain pm j s ∧ s.length ≤ l.length ∧
      chainWeight w s ≤ chainWeight w l := by
  induction h with
  | root k hk =>
      intro j hj
      rcases List.mem_singleton.mp hj with rfl
      exact ⟨[j], PChain.root j hk, le_rfl, le_rfl⟩
  | step k j2 m hk hchain ih =>
      intro a ha
      rcases List.mem_cons.mp ha with rfl | ham
      · exact ⟨a :: m, PChain.step a j2 m hk hchain, le_rfl, le_rfl⟩
      · rcases ih a ham with ⟨s, hs, hlen, hwt⟩
        refine ⟨s, hs, hlen.trans (by simp), hwt.trans ?_⟩
        rcases PChain_shape hchain with ⟨t, rfl⟩
        show chainWeight w (j2 :: t) ≤ w k j2 + chainWeight w (j2 :: t)
        linarith [hw k j2]

theorem PChain_nodup {pm : K → Option K} {k : K} {l : List K}
    (h : PChain pm k l) : l.Nodup := by
  induction h with
  | root k hk => simp
  | step k j m hk hj ih =>
      refine List.nodup_cons.mpr ⟨?_, ih⟩
      intro hkm
      rcases PChain_mem_suffix (w := fun _ _ => 0) (fun _ _ => le_rfl) hj k hkm with
        ⟨s, hs, hlen, _⟩
      have hseq := PChain_unique hs (PChain.step k j m hk hj)
      rw [hseq] at hlen
      simp at hlen

/-- A chain is untouched by modifying the parent map outside of it. -/
theorem PChain_congr {pm pm' : K → Option K} {k : K} {l : List K}
    (h : PChain pm k l) (hag : ∀ a ∈ l, pm' a = pm a) : PChain pm' k l := by
  induction h with
  | root k hk => exact PChain.root k ((hag k (by simp)).trans hk)
  | step k j m hk hj ih =>
      refine PChain.step k j m ((hag k (by simp)).trans hk) (ih ?_)
      intro a ha
      exact hag a (by simp [ha])

theorem PChain_last {pm : K → Option K} {k : K} {l : List K}
    (h : PChain pm k l) : ∃ t r, l = t ++ [r] ∧ pm r = none := by
  induction h with
  | root k hk => exact ⟨[], k, rfl, hk⟩
  | step k j m hk hj ih =>
      rcases ih with ⟨t, r, rfl, hr⟩
      exact ⟨k :: t, r, rfl, hr⟩

/-- A duplicate-free list of naturals all below `n` has length at most
`n`. -/
theorem nodup_lt_length_le {l : List ℕ} {n : ℕ} (hnd : l.Nodup)
    (hlt : ∀ k ∈ l, k < n) : l.length ≤ n := by
  classical
  have h1 : l.length = l.toFinset.card := (List.toFinset_card_of_nodup hnd).symm
  have h2 : l.toFinset ⊆ Finset.range n := by
    intro a ha
    exact Finset.mem_range.mpr (hlt a (List.mem_toFinset.mp ha))
  calc l.length = l.toFinset.card := h1
    _ ≤ (Finset.range n).card := Finset.card_le_card h2
    _ = n := Finset.card_range n

end Chains

/-! ## Chains in the RRT arena -/

/-- The parent map of a node list: index `i` maps to its node's parent
index. -/
def parentMap (ns : List RRTNode) : ℕ → Option ℕ :=
  fun i => (ns.get? i).bind RRTNode.parent

/-- Edge length between the nodes at two indices (the summand of
`get_cost`). -/
noncomputable def edgeW (ns : List RRTNode) : ℕ → ℕ → ℝ :=
  fun i j =>
    match ns.get? i, ns.get? j with
    | some n, some m => Real.sqrt ((n.x - m.x) ^ 2 + (n.y - m.y) ^ 2)
    | _, _ => 0

/-- Position of the node at an index. -/
noncomputable def posOf (ns : List RRTNode) (i : ℕ) : ℝ × ℝ :=
  (ns.get? i).elim (0, 0) fun n => (n.x, n.y)

/-- Rooted-arborescence property of a tree state: every parent reference
is a valid index different from the owner, only the root (index `0`) is
parentless, and no node is its own ancestor (the parent graph has no
cycle through any node). -/
def Arborescence (ns : List RRTNode) : Prop :=
  (∀ i n j, ns.get? i = some n → n.parent = some j → j < ns.length ∧ j ≠ i) ∧
  (∀ i n, ns.get? i = some n → n.parent = none → i = 0) ∧
  ∀ i, ¬ Relation.TransGen (fun a b : ℕ => parentMap ns a = some b) i i

theorem lt_of_get?_some {ns : List RRTNode} {i : ℕ} {n : RRTNode}
    (h : ns.get? i = some n) : i < ns.length := by
  rcases List.get?_eq_some.mp h with ⟨hlt, _⟩
  exact hlt

theorem get?_of_lt {ns : List RRTNode} {i : ℕ} (h : i < ns.length) :
    ∃ n, ns.get? i = some n := by
  cases hg : ns.get? i with
  | none => exact absurd (List.get?_eq_none.mp hg) (by omega)
  | some n => exact ⟨n, rfl⟩

theorem edgeW_nonneg (ns : List RRTNode) : ∀ i j, 0 ≤ edgeW ns i j := by
  intro i j
  unfold edgeW
  cases ns.get? i with
  | none => exact le_refl 0
  | some n =>
      cases ns.get? j with
      | none => exact le_refl 0
      | some m => exact Real.sqrt_nonneg _

theorem getCostAux_zero (ns : List RRTNode) (i : ℕ) : getCostAux ns 0 i = 0 := rfl

theorem getCostAux_succ_none (ns : List RRTNode) (fuel i : ℕ)
    (hn : ns.get? i = none) : getCostAux ns (fuel + 1) i = 0 := by
  simp only [List.get?_eq_getElem?] at hn
  simp [getCostAux, hn]

theorem getCostAux_succ_root (ns : List RRTNode) (fuel i : ℕ) (n : RRTNode)
    (hn : ns.get? i = some n) (hp : n.parent = none) :
    getCostAux ns (fuel + 1) i = 0 := by
  simp only [List.get?_eq_getElem?] at hn
  simp [getCostAux, hn, hp]

theorem getCostAux_succ_step (ns : List RRTNode) (fuel i j : ℕ) (n m : RRTNode)
    (hn : ns.get? i = some n) (hp : n.parent = some j) (hm : ns.get? j = some m) :
    getCostAux ns (fuel + 1) i =
      Real.sqrt ((n.x - m.x) ^ 2 + (n.y - m.y) ^ 2) + getCostAux ns fuel j := by
  simp only [List.get?_eq_getElem?] at hn hm
  simp [getCostAux, hn, hp, hm]

theorem getCostAux_succ_step_none (ns : List RRTNode) (fuel i j : ℕ) (n : RRTNode)
    (hn : ns.get? i = some n) (hp : n.parent = some j) (hm : ns.get? j = none) :
    getCostAux ns (fuel + 1) i = 0 := by
  simp only [List.get?_eq_getElem?] at hn hm
  simp [getCostAux, hn, hp, hm]

theorem getCostAux_nonneg (ns : List RRTNode) : ∀ fuel i, 0 ≤ getCostAux ns fuel i := by
  intro fuel
  induction fuel with
  | zero => intro i; rw [getCostAux_zero]
  | succ fuel ih =>
      intro i
      cases hn : ns.get? i with
      | none => rw [getCostAux_succ_none ns fuel i hn]
      | some n =>
          cases hp : n.parent with
          | none => rw [getCostAux_succ_root ns fuel i n hn hp]
          | some j =>
              cases hm : ns.get? j with
              | none => rw [getCostAux_succ_step_none ns fuel i j n hn hp hm]
              | some m =>
                  rw [getCostAux_succ_step ns fuel i j n m hn hp hm]
                  exact add_nonneg (Real.sqrt_nonneg _) (ih j)

theorem edgeW_some (ns : List RRTNode) (i j : ℕ) (n m : RRTNode)
    (hn : ns.get? i = some n) (hm : ns.get? j = some m) :
    edgeW ns i j = Real.sqrt ((n.x - m.x) ^ 2 + (n.y - m.y) ^ 2) := by
  simp only [List.get?_eq_getElem?] at hn hm
  simp [edgeW, hn, hm]

theorem posOf_some (ns : List RRTNode) (i : ℕ) (n : RRTNode)
    (hn : ns.get? i = some n) : posOf ns i = (n.x, n.y) := by
  simp only [List.get?_eq_getElem?] at hn
  simp [posOf, hn]

/-- `get_cost` walks exactly the parent chain: with sufficient fuel it
computes the chain's summed edge length. -/
theorem getCostAux_chain (ns : List RRTNode) {i : ℕ} {l : List ℕ}
    (h : PChain (parentMap ns) i l) :
    ∀ fuel, l.length ≤ fuel → (∀ k ∈ l, k < ns.length) →
      getCostAux ns fuel i = chainWeight (edgeW ns) l := by
  induction h with
  | root k hk =>
      intro fuel hfuel hval
      rcases get?_of_lt (hval k (by simp)) with ⟨n, hn⟩
      have hpar : n.parent = none := by
        unfold parentMap at hk
        rw [hn] at hk
        exact hk
      cases fuel with
      | zero => simp at hfuel
      | succ fuel =>
          rw [getCostAux_succ_root ns fuel k n hn hpar]
          rfl
  | step k j m hk hchain ih =>
      intro fuel hfuel hval
      rcases get?_of_lt (hval k (by simp)) with ⟨n, hn⟩
      have hpar : n.parent = some j := by
        unfold parentMap at hk
        rw [hn] at hk
        exact hk
      rcases PChain_shape hchain with ⟨t, rfl⟩
      rcases get?_of_lt (hval j (by simp)) with ⟨mj, hmj⟩
      cases fuel with
      | zero => simp at hfuel
      | succ fuel =>
          rw [getCostAux_succ_step ns fuel k j n mj hn hpar hmj]
          have hrec := ih fuel
            (by simp only [List.length_cons] at hfuel ⊢; omega)
            (fun a ha => hval a (by simp [ha]))
          rw [hrec]
          show Real.sqrt ((n.x - mj.x) ^ 2 + (n.y - mj.y) ^ 2) + chainWeight (edgeW ns) (j :: t)
              = edgeW ns k j + chainWeight (edgeW ns) (j :: t)
          rw [edgeW_some ns k j n mj hn hmj]

theorem extractAux_none (ns : List RRTNode) : ∀ fuel, extractAux ns fuel none = [] := by
  intro fuel
  cases fuel with
  | zero => rfl
  | succ fuel => rfl

theorem extractAux_succ_some (ns : List RRTNode) (fuel i : ℕ) (n : RRTNode)
    (hn : ns.get? i = some n) :
    extractAux ns (fuel + 1) (some i) = (n.x, n.y) :: extractAux ns fuel n.parent := by
  simp only [List.get?_eq_getElem?] at hn
  simp [extractAux, hn]

/-- `_extract_path`'s walk visits exactly the parent chain, collecting
node positions. -/
theorem extractAux_chain (ns : List RRTNode) {i : ℕ} {l : List ℕ}
    (h : PChain (parentMap ns) i l) :
    ∀ fuel, l.length ≤ fuel → (∀ k ∈ l, k < ns.length) →
      extractAux ns fuel (some i) = l.map (posOf ns) := by
  induction h with
  | root k hk =>
      intro fuel hfuel hval
      rcases get?_of_lt (hval k (by simp)) with ⟨n, hn⟩
      have hpar : n.parent = none := by
        unfold parentMap at hk
        rw [hn] at hk
        exact hk
      cases fuel with
      | zero => simp at hfuel
      | succ fuel =>
          rw [extractAux_succ_some ns fuel k n hn, hpar, extractAux_none]
          simp only [List.map_cons, List.map_nil, posOf_some ns k n hn]
  | step k j m hk hchain ih =>
      intro fuel hfuel hval
      rcases get?_of_lt (hval k (by simp)) with ⟨n, hn⟩
      have hpar : n.parent = some j := by
        unfold parentMap at hk
        rw [hn] at hk
        exact hk
      cases fuel with
      | zero => simp at hfuel
      | succ fuel =>
          rw [extractAux_succ_some ns fuel k n hn, hpar]
          have hrec := ih fuel
            (by simp only [List.length_cons] at hfuel ⊢; omega)
            (fun a ha => hval a (by simp [ha]))
          rw [hrec]
          simp only [List.map_cons, posOf_some ns k n hn]

/-! ## The RRT* tree invariant

The tree is a rooted arborescence: index `0` is the unique parentless
node (sitting at `start` with cost `0`), every parent index is in range,
and — the acyclicity certificate — every index has a full parent chain
down to a root, whose summed edge length is moreover bounded by the
node's cached cost (caches may only *overestimate* after rewiring makes
a descendant's chain cheaper). -/

structure StarInv (start : ℝ × ℝ) (ns : List RRTNode) : Prop where
  root_node : ∃ n0, ns.get? 0 = some n0 ∧ n0.x = start.1 ∧ n0.y = start.2 ∧
    n0.parent = none ∧ n0.cost = 0
  root_only : ∀ i n, ns.get? i = some n → n.parent = none → i = 0
  parent_lt : ∀ i n j, ns.get? i = some n → n.parent = some j → j < ns.length
  chains : ∀ i, i < ns.length → ∃ l, PChain (parentMap ns) i l ∧
    (∀ k ∈ l, k < ns.length) ∧
    chainWeight (edgeW ns) l ≤ (ns.get? i).elim 0 RRTNode.cost

theorem chainWeight_congr {K : Type} {w w' : K → K → ℝ} :
    ∀ l : List K, (∀ a ∈ l, ∀ b ∈ l, w a b = w' a b) →
      chainWeight w l = chainWeight w' l := by
  intro l
  induction l with
  | nil => intro _; rfl
  | cons a rest ih =>
      intro hag
      cases rest with
      | nil => rfl
      | cons b rest2 =>
          show w a b + chainWeight w (b :: rest2) = w' a b + chainWeight w' (b :: rest2)
          rw [hag a (by simp) b (by simp),
            ih fun x hx y hy => hag x (by simp [hx]) y (by simp [hy])]

theorem StarInv.length_pos {start : ℝ × ℝ} {ns : List RRTNode}
    (h : StarInv start ns) : 0 < ns.length := by
  rcases h.root_node with ⟨n0, h0, -⟩
  exact lt_of_get?_some h0

theorem StarInv.chain_length_le {start : ℝ × ℝ} {ns : List RRTNode}
    (h : StarInv start ns) {i : ℕ} {l : List ℕ}
    (hc : PChain (parentMap ns) i l) (hval : ∀ k ∈ l, k < ns.length) :
    l.length ≤ ns.length :=
  nodup_lt_length_le (PChain_nodup hc) hval

theorem StarInv.getCost_eq {start : ℝ × ℝ} {ns : List RRTNode}
    (h : StarInv start ns) {i : ℕ} {l : List ℕ}
    (hc : PChain (parentMap ns) i l) (hval : ∀ k ∈ l, k < ns.length) :
    getCost ns i = chainWeight (edgeW ns) l :=
  getCostAux_chain ns hc ns.length (h.chain_length_le hc hval) hval

theorem StarInv.cost_lower {start : ℝ × ℝ} {ns : List RRTNode}
    (h : StarInv start ns) {i : ℕ} {n : RRTNode} (hn : ns.get? i = some n) :
    0 ≤ n.cost := by
  rcases h.chains i (lt_of_get?_some hn) with ⟨l, hc, hval, hw⟩
  have := chainWeight_nonneg (edgeW_nonneg ns) l
  rw [hn] at hw
  exact le_trans this hw

theorem StarInv.getCost_root {start : ℝ × ℝ} {ns : List RRTNode}
    (h : StarInv start ns) : getCost ns 0 = 0 := by
  rcases h.root_node with ⟨n0, h0, -, -, hp, -⟩
  have hchain : PChain (parentMap ns) 0 [0] := by
    refine PChain.root 0 ?_
    unfold parentMap
    rw [h0]
    simp [hp]
  rw [h.getCost_eq hchain (by intro k hk; rcases List.mem_singleton.mp hk with rfl
                              exact lt_of_get?_some h0)]
  rfl

theorem edgeW_append (ns : List RRTNode) (v : RRTNode) {a b : ℕ}
    (ha : a < ns.length) (hb : b < ns.length) :
    edgeW (ns ++ [v]) a b = edgeW ns a b := by
  unfold edgeW
  rw [List.get?_append ha, List.get?_append hb]

/-- Appending a node whose parent is an existing index `bp` and whose
cached cost is exactly `get_cost(bp) + dist(bp, new)` — the form RRT*'s
parent-selection produces — preserves the invariant. -/
theorem StarInv.append {start : ℝ × ℝ} {ns : List RRTNode}
    (h : StarInv start ns) (q : ℝ × ℝ) {bp : ℕ} {nbp : RRTNode}
    (hbp : ns.get? bp = some nbp) :
    StarInv start (ns ++ [⟨q.1, q.2, some bp,
      getCost ns bp + Real.sqrt ((q.1 - nbp.x) ^ 2 + (q.2 - nbp.y) ^ 2)⟩]) := by
  set v : RRTNode := ⟨q.1, q.2, some bp,
    getCost ns bp + Real.sqrt ((q.1 - nbp.x) ^ 2 + (q.2 - nbp.y) ^ 2)⟩ with hv
  have hbplt : bp < ns.length := lt_of_get?_some hbp
  have hlen : (ns ++ [v]).length = ns.length + 1 := by simp
  have hget : ∀ k, k < ns.length → (ns ++ [v]).get? k = ns.get? k := by
    intro k hk
    exact List.get?_append hk
  have hgetv : (ns ++ [v]).get? ns.length = some v := List.get?_concat_length ns v
  have hpm : ∀ k, k < ns.length → parentMap (ns ++ [v]) k = parentMap ns k := by
    intro k hk
    unfold parentMap
    rw [hget k hk]
  refine ⟨?_, ?_, ?_, ?_⟩
  · rcases h.root_node with ⟨n0, h0, hx, hy, hp, hc⟩
    exact ⟨n0, (hget 0 h.length_pos).trans h0, hx, hy, hp, hc⟩
  · intro i n hin hpar
    have hi1 : i < ns.length + 1 := by
      have := lt_of_get?_some hin
      omega
    rcases Nat.lt_succ_iff_lt_or_eq.mp hi1 with hi | rfl
    · exact h.root_only i n ((hget i hi).symm.trans hin) hpar
    · rw [hgetv] at hin
      injection hin with hin
      rw [← hin] at hpar
      cases hpar
  · intro i n j hin hpar
    have hi1 : i < ns.length + 1 := by
      have := lt_of_get?_some hin
      omega
    rw [hlen]
    rcases Nat.lt_succ_iff_lt_or_eq.mp hi1 with hi | rfl
    · have := h.parent_lt i n j ((hget i hi).symm.trans hin) hpar
      omega
    · rw [hgetv] at hin
      injection hin with hin
      rw [← hin] at hpar
      injection hpar with hpar
      omega
  · intro i hi
    rw [hlen] at hi
    rcases Nat.lt_succ_iff_lt_or_eq.mp hi with hilt | rfl
    · rcases h.chains i hilt with ⟨l, hc, hval, hw⟩
      refine ⟨l, PChain_congr hc (fun a ha => hpm a (hval a ha)), ?_, ?_⟩
      · intro k hk
        have := hval k hk
        omega
      · rw [chainWeight_congr l
          (fun a ha b hb => edgeW_append ns v (hval a ha) (hval b hb)),
          hget i hilt]
        exact hw
    · rcases h.chains bp hbplt with ⟨lbp, hcbp, hvalbp, hwbp⟩
      refine ⟨ns.length :: lbp, ?_, ?_, ?_⟩
      · refine PChain.step ns.length bp lbp ?_
          (PChain_congr hcbp (fun a ha => hpm a (hvalbp a ha)))
        unfold parentMap
        rw [hgetv]
        rfl
      · intro k hk
        rcases List.mem_cons.mp hk with rfl | hk2
        · omega
        · have := hvalbp k hk2
          omega
      · rcases PChain_shape hcbp with ⟨t, rfl⟩
        show edgeW (ns ++ [v]) ns.length bp +
            chainWeight (edgeW (ns ++ [v])) (bp :: t) ≤ _
        rw [hgetv]
        have hedge : edgeW (ns ++ [v]) ns.length bp =
            Real.sqrt ((q.1 - nbp.x) ^ 2 + (q.2 - nbp.y) ^ 2) := by
          rw [edgeW_some (ns ++ [v]) ns.length bp v nbp hgetv
            ((hget bp hbplt).trans hbp)]
        rw [hedge,
          chainWeight_congr (bp :: t)
            (fun a ha b hb => edgeW_append ns v (hvalbp a ha) (hvalbp b hb)),
          ← h.getCost_eq hcbp hvalbp]
        show Real.sqrt ((q.1 - nbp.x) ^ 2 + (q.2 - nbp.y) ^ 2) + getCost ns bp ≤
          getCost ns bp + Real.sqrt ((q.1 - nbp.x) ^ 2 + (q.2 - nbp.y) ^ 2)
        linarith

/-- Rewiring only changes a node's parent and cost fields, so edge
lengths (which read coordinates only) are unchanged. -/
theorem edgeW_set (ns : List RRTNode) (j : ℕ) (near : RRTNode) (p' : Option ℕ) (c' : ℝ)
    (hnear : ns.get? j = some near) :
    edgeW (ns.set j { near with parent := p', cost := c' }) = edgeW ns := by
  have hget : ∀ k, (ns.set j { near with parent := p', cost := c' }).get? k =
      if k = j then some { near with parent := p', cost := c' } else ns.get? k := by
    intro k
    by_cases hk : k = j
    · subst hk
      rw [if_pos rfl, List.get?_set_eq]
      rw [hnear]
      rfl
    · rw [if_neg hk, List.get?_set_ne _ _ (fun hh => hk hh.symm)]
  funext a b
  unfold edgeW
  rw [hget a, hget b]
  by_cases ha : a = j
  · by_cases hb : b = j
    · rw [if_pos ha, if_pos hb, ha, hb, hnear]
    · rw [if_pos ha, if_neg hb, ha, hnear]
      cases ns.get? b with
      | none => rfl
      | some m => rfl
  · by_cases hb : b = j
    · rw [if_neg ha, if_pos hb, hb, hnear]
      cases ns.get? a with
      | none => rfl
      | some n => rfl
    · rw [if_neg ha, if_neg hb]

/-- The rewiring step of RRT*: re-parenting `j` to `newIdx` under the
strict cost-improvement condition preserves the invariant.  The cost
condition is what makes a cycle impossible: were `j` an ancestor of
`newIdx`, the new node's cached cost would already exceed `j`'s walked
cost, contradicting the strict improvement. -/
theorem StarInv.rewire {start : ℝ × ℝ} {ns : List RRTNode}
    (h : StarInv start ns) {j newIdx : ℕ} {nw near : RRTNode}
    (hnw : ns.get? newIdx = some nw) (hnear : ns.get? j = some near)
    (hcond : nw.cost + Real.sqrt ((nw.x - near.x) ^ 2 + (nw.y - near.y) ^ 2) < getCost ns j) :
    StarInv start (ns.set j { near with parent := some newIdx, cost := nw.cost + Real.sqrt ((nw.x - near.x) ^ 2 + (nw.y - near.y) ^ 2) }) := by
  set e : ℝ := Real.sqrt ((nw.x - near.x) ^ 2 + (nw.y - near.y) ^ 2) with he
  have he0 : 0 ≤ e := Real.sqrt_nonneg _
  set nn : RRTNode := { near with parent := some newIdx, cost := nw.cost + e } with hnn
  set ns' : List RRTNode := ns.set j nn with hns'
  have hjlt : j < ns.length := lt_of_get?_some hnear
  have hnewlt : newIdx < ns.length := lt_of_get?_some hnw
  have hnwc0 : 0 ≤ nw.cost := h.cost_lower hnw
  -- the root is never rewired
  have hj0 : j ≠ 0 := by
    intro hj0eq
    rw [hj0eq, h.getCost_root] at hcond
    linarith
  have hget : ∀ k, ns'.get? k = if k = j then some nn else ns.get? k := by
    intro k
    by_cases hk : k = j
    · subst hk
      rw [if_pos rfl, hns', List.get?_set_eq, hnear]
      rfl
    · rw [if_neg hk, hns', List.get?_set_ne _ _ (fun hh => hk hh.symm)]
  have hlen : ns'.length = ns.length := by
    rw [hns', List.length_set]
  have hedge : edgeW ns' = edgeW ns := edgeW_set ns j near (some newIdx) (nw.cost + e) hnear
  -- the invariant chain of the new node, and the no-cycle fact
  rcases h.chains newIdx hnewlt with ⟨lnew, hcnew, hvalnew, hwnew⟩
  have hwnew' : chainWeight (edgeW ns) lnew ≤ nw.cost := by
    rw [hnw] at hwnew
    exact hwnew
  have hjnot : j ∉ lnew := by
    intro hmem
    rcases PChain_mem_suffix (edgeW_nonneg ns) hcnew j hmem with ⟨s, hs, hslen, hsw⟩
    rcases h.chains j hjlt with ⟨lj, hcj, hvalj, hwj⟩
    have hseq : s = lj := PChain_unique hs hcj
    have hgc : getCost ns j = chainWeight (edgeW ns) lj := h.getCost_eq hcj hvalj
    rw [hgc, ← hseq] at hcond
    linarith
  -- the rewired node's own new chain
  have hpmnew : ∀ a ∈ lnew, parentMap ns' a = parentMap ns a := by
    intro a ha
    unfold parentMap
    have haj : a ≠ j := by
      intro hh
      rw [hh] at ha
      exact hjnot ha
    rw [hget a, if_neg haj]
  have hcnew' : PChain (parentMap ns') newIdx lnew := PChain_congr hcnew hpmnew
  have hchainj : PChain (parentMap ns') j (j :: lnew) := by
    refine PChain.step j newIdx lnew ?_ hcnew'
    unfold parentMap
    rw [hget j, if_pos rfl]
    rfl
  have hedgejn : edgeW ns j newIdx = e := by
    rw [edgeW_some ns j newIdx near nw hnear hnw, he]
    congr 1
    ring
  have hwchainj : chainWeight (edgeW ns) (j :: lnew) ≤ nw.cost + e := by
    rcases PChain_shape hcnew with ⟨t, rfl⟩
    show edgeW ns j newIdx + chainWeight (edgeW ns) (newIdx :: t) ≤ nw.cost + e
    rw [hedgejn]
    linarith
  -- rebuild a chain for every index
  have main : ∀ i l, PChain (parentMap ns) i l → (∀ k ∈ l, k < ns.length) →
      ∃ l', PChain (parentMap ns') i l' ∧ (∀ k ∈ l', k < ns.length) ∧
        chainWeight (edgeW ns) l' ≤ chainWeight (edgeW ns) l ∧
        (i = j → chainWeight (edgeW ns) l' ≤ nw.cost + e) := by
    intro i l hchain
    induction hchain with
    | root k hk =>
        intro hval
        have hkj : k ≠ j := by
          intro hkeq
          rcases get?_of_lt (hval k (by simp)) with ⟨nk, hnk⟩
          have hpark : nk.parent = none := by
            unfold parentMap at hk
            rw [hnk] at hk
            exact hk
          refine hj0 ?_
          rw [← hkeq]
          exact h.root_only k nk hnk hpark
        refine ⟨[k], PChain.root k ?_, hval, le_rfl, fun hkj2 => absurd hkj2 hkj⟩
        unfold parentMap
        rw [hget k, if_neg hkj]
        unfold parentMap at hk
        exact hk
    | step k k2 m hk hchain2 ih =>
        intro hval
        by_cases hkj : k = j
        · subst hkj
          have hleq : chainWeight (edgeW ns) (k :: lnew) ≤ chainWeight (edgeW ns) (k :: m) := by
            rcases h.chains k hjlt with ⟨lj, hcj, hvalj, hwj⟩
            have huniq : k :: m = lj := PChain_unique (PChain.step k k2 m hk hchain2) hcj
            have hgc : getCost ns k = chainWeight (edgeW ns) lj := h.getCost_eq hcj hvalj
            rw [← huniq] at hgc
            rw [hgc] at hcond
            linarith [hwchainj]
          refine ⟨k :: lnew, hchainj, ?_, hleq, fun _ => hwchainj⟩
          intro a ha
          rcases List.mem_cons.mp ha with rfl | ha2
          · exact hjlt
          · exact hvalnew a ha2
        · rcases ih (fun a ha => hval a (by simp [ha])) with ⟨l', hc', hval', hw', hwj'⟩
          have hshape' := PChain_shape hc'
          rcases hshape' with ⟨t', rfl⟩
          refine ⟨k :: k2 :: t', ?_, ?_, ?_, fun hkj2 => absurd hkj2 hkj⟩
          · refine PChain.step k k2 (k2 :: t') ?_ hc'
            unfold parentMap
            rw [hget k, if_neg hkj]
            unfold parentMap at hk
            exact hk
          · intro a ha
            rcases List.mem_cons.mp ha with rfl | ha2
            · exact hval a (by simp)
            · exact hval' a ha2
          · rcases PChain_shape hchain2 with ⟨t, hteq⟩
            rw [hteq]
            show edgeW ns k k2 + chainWeight (edgeW ns) (k2 :: t') ≤
              edgeW ns k k2 + chainWeight (edgeW ns) (k2 :: t)
            have hbound : chainWeight (edgeW ns) (k2 :: t') ≤ chainWeight (edgeW ns) (k2 :: t) := by
              by_cases hk2j : k2 = j
              · have h1 := hwj' hk2j
                rcases h.chains j hjlt with ⟨lj, hcj, hvalj, hwj2⟩
                have hgc : getCost ns j = chainWeight (edgeW ns) lj := h.getCost_eq hcj hvalj
                have huniq : m = lj := by
                  rw [← hk2j] at hcj
                  exact PChain_unique hchain2 hcj
                rw [← huniq] at hgc
                rw [hgc, hteq] at hcond
                linarith
              · rw [← hteq]
                exact hw'
            linarith
  refine ⟨?_, ?_, ?_, ?_⟩
  · rcases h.root_node with ⟨n0, h0, hx, hy, hp, hc⟩
    refine ⟨n0, ?_, hx, hy, hp, hc⟩
    rw [hget 0, if_neg (fun hh => hj0 hh.symm)]
    exact h0
  · intro i n hin hpar
    rw [hget i] at hin
    by_cases hij : i = j
    · rw [if_pos hij] at hin
      injection hin with hin
      rw [← hin] at hpar
      cases hpar
    · rw [if_neg hij] at hin
      exact h.root_only i n hin hpar
  · intro i n jj hin hpar
    rw [hlen]
    rw [hget i] at hin
    by_cases hij : i = j
    · rw [if_pos hij] at hin
      injection hin with hin
      rw [← hin] at hpar
      injection hpar with hpar
      omega
    · rw [if_neg hij] at hin
      exact h.parent_lt i n jj hin hpar
  · intro i hi
    rw [hlen] at hi
    rcases h.chains i hi with ⟨l, hc, hval, hw⟩
    rcases main i l hc hval with ⟨l', hc', hval', hw', hwj'⟩
    refine ⟨l', hc', by rw [hlen]; exact hval', ?_⟩
    rw [hedge, hget i]
    by_cases hij : i = j
    · rw [if_pos hij]
      show chainWeight (edgeW ns) l' ≤ nn.cost
      rw [hnn]
      exact hwj' hij
    · rw [if_neg hij]
      calc chainWeight (edgeW ns) l' ≤ chainWeight (edgeW ns) l := hw'
        _ ≤ (ns.get? i).elim 0 RRTNode.cost := hw

/-- A rewiring step either leaves the node list unchanged or performs
the guarded re-parenting. -/
theorem rewireOne_cases (obs : List Circle) (newIdx : ℕ) (ns : List RRTNode) (j : ℕ) :
    rewireOne obs newIdx ns j = ns ∨
      ∃ nw near, ns.get? newIdx = some nw ∧ ns.get? j = some near ∧
        nw.cost + Real.sqrt ((nw.x - near.x) ^ 2 + (nw.y - near.y) ^ 2) < getCost ns j ∧
        rewireOne obs newIdx ns j =
          ns.set j { near with parent := some newIdx, cost := nw.cost + Real.sqrt ((nw.x - near.x) ^ 2 + (nw.y - near.y) ^ 2) } := by
  unfold rewireOne
  split
  · rename_i nw near hnw hnear
    by_cases hpar : nw.parent = some j
    · rw [if_pos hpar]
      exact Or.inl rfl
    · rw [if_neg hpar]
      by_cases hfree : isPathCollisionFree obs nw.x nw.y near.x near.y = true
      · rw [if_pos hfree]
        by_cases hlt : nw.cost + Real.sqrt ((nw.x - near.x) ^ 2 + (nw.y - near.y) ^ 2)
            < getCost ns j
        · rw [if_pos hlt]
          exact Or.inr ⟨nw, near, hnw, hnear, hlt, rfl⟩
        · rw [if_neg hlt]
          exact Or.inl rfl
      · rw [if_neg hfree]
        exact Or.inl rfl
  · exact Or.inl rfl

theorem StarInv_rewireOne {start : ℝ × ℝ} {ns : List RRTNode}
    (h : StarInv start ns) (obs : List Circle) (newIdx j : ℕ) :
    StarInv start (rewireOne obs newIdx ns j) := by
  rcases rewireOne_cases obs newIdx ns j with heq | ⟨nw, near, hnw, hnear, hlt, heq⟩
  · rw [heq]; exact h
  · rw [heq]; exact h.rewire hnw hnear hlt

theorem rewireOne_length (obs : List Circle) (newIdx : ℕ) (ns : List RRTNode) (j : ℕ) :
    (rewireOne obs newIdx ns j).length = ns.length := by
  rcases rewireOne_cases obs newIdx ns j with heq | ⟨nw, near, _, _, _, heq⟩
  · rw [heq]
  · rw [heq, List.length_set]

theorem StarInv_rewireFold {start : ℝ × ℝ} (obs : List Circle) (newIdx : ℕ) :
    ∀ (nearby : List ℕ) (ns : List RRTNode), StarInv start ns →
      StarInv start (nearby.foldl (rewireOne obs newIdx) ns) := by
  intro nearby
  induction nearby with
  | nil => intro ns h; exact h
  | cons a rest ih =>
      intro ns h
      exact ih (rewireOne obs newIdx ns a) (StarInv_rewireOne h obs newIdx a)

theorem rewireFold_length (obs : List Circle) (newIdx : ℕ) :
    ∀ (nearby : List ℕ) (ns : List RRTNode),
      (nearby.foldl (rewireOne obs newIdx) ns).length = ns.length := by
  intro nearby
  induction nearby with
  | nil => intro ns; rfl
  | cons a rest ih =>
      intro ns
      rw [List.foldl_cons, ih (rewireOne obs newIdx ns a), rewireOne_length]

/-- The parent-selection fold only ever returns an index present in the
node list together with the exact cost `get_cost(j) + dist(j, new)`. -/
theorem cpStep_spec (obs : List Circle) (ns : List RRTNode) (q : ℝ × ℝ) (ni : ℕ)
    (acc : ℕ × ℝ) (j : ℕ)
    (hacc : ∃ n, ns.get? acc.1 = some n ∧
      acc.2 = getCost ns acc.1 + Real.sqrt ((q.1 - n.x) ^ 2 + (q.2 - n.y) ^ 2)) :
    ∃ n, ns.get? (cpStep obs ns q ni acc j).1 = some n ∧
      (cpStep obs ns q ni acc j).2 =
        getCost ns (cpStep obs ns q ni acc j).1 +
          Real.sqrt ((q.1 - n.x) ^ 2 + (q.2 - n.y) ^ 2) := by
  unfold cpStep
  by_cases hai : j = ni
  · rw [if_pos hai]
    exact hacc
  · rw [if_neg hai]
    split
    · exact hacc
    · rename_i na hga
      by_cases hfree : isPathCollisionFree obs na.x na.y q.1 q.2 = true
      · rw [if_pos hfree]
        by_cases hlt : getCost ns j +
            Real.sqrt ((q.1 - na.x) ^ 2 + (q.2 - na.y) ^ 2) < acc.2
        · rw [if_pos hlt]
          exact ⟨na, hga, rfl⟩
        · rw [if_neg hlt]
          exact hacc
      · rw [if_neg hfree]
        exact hacc

theorem chooseParent_spec (obs : List Circle) (ns : List RRTNode) (q : ℝ × ℝ)
    (nearby : List ℕ) (ini : ℕ × ℝ)
    (hini : ∃ n, ns.get? ini.1 = some n ∧
      ini.2 = getCost ns ini.1 + Real.sqrt ((q.1 - n.x) ^ 2 + (q.2 - n.y) ^ 2)) :
    ∃ n, ns.get? (chooseParent obs ns q nearby ini).1 = some n ∧
      (chooseParent obs ns q nearby ini).2 =
        getCost ns (chooseParent obs ns q nearby ini).1 +
          Real.sqrt ((q.1 - n.x) ^ 2 + (q.2 - n.y) ^ 2) := by
  unfold chooseParent
  have hgen : ∀ (rest : List ℕ) (acc : ℕ × ℝ),
      (∃ n, ns.get? acc.1 = some n ∧
        acc.2 = getCost ns acc.1 + Real.sqrt ((q.1 - n.x) ^ 2 + (q.2 - n.y) ^ 2)) →
      ∃ n, ns.get? (rest.foldl (cpStep obs ns q ini.1) acc).1 = some n ∧
        (rest.foldl (cpStep obs ns q ini.1) acc).2 =
          getCost ns (rest.foldl (cpStep obs ns q ini.1) acc).1 +
            Real.sqrt ((q.1 - n.x) ^ 2 + (q.2 - n.y) ^ 2) := by
    intro rest
    induction rest with
    | nil => intro acc hacc; exact hacc
    | cons a t ih =>
        intro acc hacc
        rw [List.foldl_cons]
        exact ih _ (cpStep_spec obs ns q ini.1 acc a hacc)
  exact hgen nearby ini hini

/-- Full loop-state invariant: tree invariant plus a valid best-candidate
index. -/
def SInv (start : ℝ × ℝ) (s : StarState) : Prop :=
  StarInv start s.ns ∧ ∀ b, s.best = some b → b < s.ns.length

theorem SInv_init (start : ℝ × ℝ) : SInv start (initStar start) := by
  constructor
  · refine ⟨⟨initNode start, rfl, rfl, rfl, rfl, rfl⟩, ?_, ?_, ?_⟩
    · intro i n hin _
      have := lt_of_get?_some hin
      simp [initStar] at this
      omega
    · intro i n j hin hpar
      have hi : i < 1 := by
        have := lt_of_get?_some hin
        simpa [initStar] using this
      interval_cases i
      simp [initStar, initNode] at hin
      rw [← hin] at hpar
      cases hpar
    · intro i hi
      simp only [initStar, List.length_singleton] at hi
      interval_cases i
      refine ⟨[0], PChain.root 0 (by simp [parentMap, initStar, initNode]), ?_, ?_⟩
      · intro k hk
        rcases List.mem_singleton.mp hk with rfl
        simp [initStar]
      · show (0 : ℝ) ≤ _
        simp [initStar, initNode]
  · intro b hb
    cases hb

theorem starStep_none {cfg : RRTConfig} {goal : ℝ × ℝ} {s : StarState} {smp : ℝ × ℝ}
    (hx : starExtend cfg s smp = none) : starStep cfg goal s smp = s := by
  unfold starStep
  rw [hx]

theorem starStep_some {cfg : RRTConfig} {goal : ℝ × ℝ} {s : StarState} {smp : ℝ × ℝ}
    {info : ExtendInfo} (hx : starExtend cfg s smp = some info) :
    starStep cfg goal s smp =
      { ns := info.nearby.foldl (rewireOne cfg.obstacles info.newIdx) info.ns1,
        best :=
          if distR info.q goal < cfg.goalThreshold then
            match s.bestCost with
            | none => some info.newIdx
            | some bc =>
                if ((((info.nearby.foldl (rewireOne cfg.obstacles info.newIdx)
                    info.ns1).get? info.newIdx).map RRTNode.cost).getD 0) < bc then
                  some info.newIdx
                else s.best
          else s.best,
        bestCost :=
          if distR info.q goal < cfg.goalThreshold then
            match s.bestCost with
            | none => some ((((info.nearby.foldl (rewireOne cfg.obstacles info.newIdx)
                info.ns1).get? info.newIdx).map RRTNode.cost).getD 0)
            | some bc =>
                if ((((info.nearby.foldl (rewireOne cfg.obstacles info.newIdx)
                    info.ns1).get? info.newIdx).map RRTNode.cost).getD 0) < bc then
                  some ((((info.nearby.foldl (rewireOne cfg.obstacles info.newIdx)
                    info.ns1).get? info.newIdx).map RRTNode.cost).getD 0)
                else some bc
          else s.bestCost } := by
  unfold starStep
  rw [hx]

/-- When `starExtend` succeeds the appended list satisfies the tree
invariant, and the new node sits at index `s.ns.length`. -/
theorem starExtend_spec {start : ℝ × ℝ} {s : StarState} {cfg : RRTConfig} {smp : ℝ × ℝ}
    (h : StarInv start s.ns) {info : ExtendInfo}
    (hx : starExtend cfg s smp = some info) :
    StarInv start info.ns1 ∧ info.newIdx = s.ns.length ∧
      info.ns1.length = s.ns.length + 1 := by
  unfold starExtend at hx
  split at hx
  · cases hx
  · rename_i nearest hnear
    by_cases hfree : isPathCollisionFree cfg.obstacles nearest.x nearest.y
        (steer cfg.stepSize nearest.x nearest.y smp.1 smp.2).1
        (steer cfg.stepSize nearest.x nearest.y smp.1 smp.2).2 = true
    · rw [if_pos hfree] at hx
      injection hx with hx
      subst hx
      rcases chooseParent_spec cfg.obstacles s.ns
        (steer cfg.stepSize nearest.x nearest.y smp.1 smp.2)
        (findNearby cfg.neighborRadius s.ns
          (steer cfg.stepSize nearest.x nearest.y smp.1 smp.2).1
          (steer cfg.stepSize nearest.x nearest.y smp.1 smp.2).2)
        (_, getCost s.ns ((findNearest s.ns smp.1 smp.2).getD 0) +
          Real.sqrt (((steer cfg.stepSize nearest.x nearest.y smp.1 smp.2).1 - nearest.x) ^ 2 +
            ((steer cfg.stepSize nearest.x nearest.y smp.1 smp.2).2 - nearest.y) ^ 2))
        ⟨nearest, hnear, rfl⟩ with ⟨nbp, hbp, hcost⟩
      refine ⟨?_, rfl, by simp⟩
      have happ := h.append (steer cfg.stepSize nearest.x nearest.y smp.1 smp.2) hbp
      rw [← hcost] at happ
      exact happ
    · rw [if_neg hfree] at hx
      cases hx

theorem starStep_SInv {start : ℝ × ℝ} (cfg : RRTConfig) (goal : ℝ × ℝ)
    {s : StarState} (h : SInv start s) (smp : ℝ × ℝ) :
    SInv start (starStep cfg goal s smp) := by
  cases hx : starExtend cfg s smp with
  | none => rw [starStep_none hx]; exact h
  | some info =>
      rw [starStep_some hx]
      obtain ⟨hinv1, hnew, hlen1⟩ := starExtend_spec h.1 hx
      have hinv2 : StarInv start
          (info.nearby.foldl (rewireOne cfg.obstacles info.newIdx) info.ns1) :=
        StarInv_rewireFold cfg.obstacles info.newIdx info.nearby info.ns1 hinv1
      have hlen2 : (info.nearby.foldl (rewireOne cfg.obstacles info.newIdx)
          info.ns1).length = info.ns1.length :=
        rewireFold_length cfg.obstacles info.newIdx info.nearby info.ns1
      refine ⟨hinv2, ?_⟩
      intro b hb
      simp only at hb
      rw [hlen2, hlen1]
      by_cases hcap : distR info.q goal < cfg.goalThreshold
      · rw [if_pos hcap] at hb
        split at hb
        · injection hb with hb
          omega
        · split at hb
          · injection hb with hb
            omega
          · have := h.2 b hb
            omega
      · rw [if_neg hcap] at hb
        have := h.2 b hb
        omega

theorem starLoop_SInv {start : ℝ × ℝ} (cfg : RRTConfig) (goal : ℝ × ℝ) :
    ∀ (samples : List (ℝ × ℝ)) (s : StarState), SInv start s →
      SInv start (starLoop cfg goal s samples) := by
  intro samples
  induction samples with
  | nil => intro s h; exact h
  | cons smp rest ih =>
      intro s h
      exact ih (starStep cfg goal s smp) (starStep_SInv cfg goal h smp)

/-- Path extraction from a goal node whose parent chain is rooted:
the reconstructed (reversed) path starts at the root's position and ends
at the goal position. -/
theorem extractPath_endpoints {start : ℝ × ℝ} {ns : List RRTNode}
    (hroot : ∃ n0, ns.get? 0 = some n0 ∧ n0.x = start.1 ∧ n0.y = start.2)
    (hro : ∀ i n, ns.get? i = some n → n.parent = none → i = 0)
    {b : ℕ} {l : List ℕ}
    (hchain : PChain (parentMap ns) b l) (hval : ∀ k ∈ l, k < ns.length)
    (hlen : l.length ≤ ns.length + 1) (goal : ℝ × ℝ) :
    (extractPath ns goal (some b)).head? = some start ∧
      (extractPath ns goal (some b)).getLast? = some goal := by
  unfold extractPath
  have hex : extractAux ns (ns.length + 1) (some b) = l.map (posOf ns) :=
    extractAux_chain ns hchain (ns.length + 1) hlen hval
  rw [hex]
  constructor
  · rw [List.head?_reverse]
    rcases PChain_last hchain with ⟨t, r, hl, hr⟩
    have hrval : r < ns.length := hval r (by rw [hl]; simp)
    rcases get?_of_lt hrval with ⟨nr, hnr⟩
    have hparr : nr.parent = none := by
      unfold parentMap at hr
      rw [hnr] at hr
      simpa using hr
    have hr0 : r = 0 := hro r nr hnr hparr
    rcases hroot with ⟨n0, h0, hx, hy⟩
    have hpos : posOf ns r = start := by
      rw [hr0, posOf_some ns 0 n0 h0, hx, hy]
    rw [hl, List.map_append, List.map_singleton]
    rw [show (goal :: (t.map (posOf ns) ++ [posOf ns r])) =
      ((goal :: t.map (posOf ns)) ++ [posOf ns r]) from rfl]
    rw [List.getLast?_concat, hpos]
  · rw [List.getLast?_reverse]
    rfl

/-! ## The base planner's tree invariant -/

def BaseInv (start : ℝ × ℝ) (ns : List RRTNode) : Prop :=
  (∃ n0, ns.get? 0 = some n0 ∧ n0.x = start.1 ∧ n0.y = start.2 ∧ n0.parent = none) ∧
    (∀ i n, ns.get? i = some n → n.parent = none → i = 0) ∧
    (∀ i n j, ns.get? i = some n → n.parent = some j → j < i)

theorem BaseInv_init (start : ℝ × ℝ) : BaseInv start [initNode start] := by
  refine ⟨⟨initNode start, rfl, rfl, rfl, rfl⟩, ?_, ?_⟩
  · intro i n hin _
    have := lt_of_get?_some hin
    simp at this
    omega
  · intro i n j hin hpar
    have hi : i < 1 := by
      have := lt_of_get?_some hin
      simpa using this
    interval_cases i
    simp [initNode] at hin
    rw [← hin] at hpar
    cases hpar

/-- Appending a node parented at an existing index preserves the base
invariant. -/
theorem BaseInv_append {start : ℝ × ℝ} {ns : List RRTNode}
    (h : BaseInv start ns) (v : RRTNode) {jp : ℕ}
    (hvp : v.parent = some jp) (hjp : jp < ns.length) :
    BaseInv start (ns ++ [v]) := by
  have hget : ∀ k, k < ns.length → (ns ++ [v]).get? k = ns.get? k := by
    intro k hk
    exact List.get?_append hk
  have hgetv : (ns ++ [v]).get? ns.length = some v := List.get?_concat_length ns v
  have hlen0 : 0 < ns.length := by
    rcases h.1 with ⟨n0, h0, -⟩
    exact lt_of_get?_some h0
  refine ⟨?_, ?_, ?_⟩
  · rcases h.1 with ⟨n0, h0, hx, hy, hp⟩
    exact ⟨n0, (hget 0 hlen0).trans h0, hx, hy, hp⟩
  · intro i n hin hpar
    have hi1 : i < ns.length + 1 := by
      have := lt_of_get?_some hin
      simpa using this
    rcases Nat.lt_succ_iff_lt_or_eq.mp hi1 with hi | rfl
    · exact h.2.1 i n ((hget i hi).symm.trans hin) hpar
    · rw [hgetv] at hin
      injection hin with hin
      rw [← hin] at hpar
      rw [hvp] at hpar
      cases hpar
  · intro i n j hin hpar
    have hi1 : i < ns.length + 1 := by
      have := lt_of_get?_some hin
      simpa using this
    rcases Nat.lt_succ_iff_lt_or_eq.mp hi1 with hi | rfl
    · exact h.2.2 i n j ((hget i hi).symm.trans hin) hpar
    · rw [hgetv] at hin
      injection hin with hin
      rw [← hin] at hpar
      rw [hvp] at hpar
      injection hpar with hpar
      omega

theorem BaseInv_chain {start : ℝ × ℝ} {ns : List RRTNode} (h : BaseInv start ns) :
    ∀ i, i < ns.length → ∃ l, PChain (parentMap ns) i l ∧
      (∀ k ∈ l, k < ns.length) ∧ l.length ≤ i + 1 := by
  intro i
  induction i using Nat.strong_induction_on with
  | _ i ih =>
      intro hi
      rcases get?_of_lt hi with ⟨n, hn⟩
      cases hp : n.parent with
      | none =>
          refine ⟨[i], PChain.root i ?_, ?_, by simp⟩
          · unfold parentMap
            rw [hn]
            simp [hp]
          · intro k hk
            rcases List.mem_singleton.mp hk with rfl
            exact hi
      | some j =>
          have hji : j < i := h.2.2 i n j hn hp
          rcases ih j hji (by omega) with ⟨l, hc, hval, hlchain⟩
          refine ⟨i :: l, PChain.step i j l ?_ hc, ?_, ?_⟩
          · unfold parentMap
            rw [hn]
            simp [hp]
          · intro k hk
            rcases List.mem_cons.mp hk with rfl | hk2
            · exact hi
            · exact hval k hk2
          · simp only [List.length_cons]
            omega

/-- Endpoint property of the base RRT loop: whatever the sample stream,
from any tree satisfying the invariant, the loop returns either the
empty sequence or a path from `start` to `goal`. -/
theorem rrtLoop_endpoints (cfg : RRTConfig) (start goal : ℝ × ℝ) :
    ∀ (samples : List (ℝ × ℝ)) (ns : List RRTNode), BaseInv start ns →
      rrtLoop cfg goal ns samples = [] ∨
        ((rrtLoop cfg goal ns samples).head? = some start ∧
          (rrtLoop cfg goal ns samples).getLast? = some goal) := by
  intro samples
  induction samples with
  | nil => intro ns _; exact Or.inl rfl
  | cons smp rest ih =>
      intro ns h
      show rrtLoop cfg goal ns (smp :: rest) = [] ∨ _
      unfold rrtLoop
      split
      · exact Or.inl rfl
      · rename_i nearest hnear
        by_cases hfree : isPathCollisionFree cfg.obstacles nearest.x nearest.y
            (steer cfg.stepSize nearest.x nearest.y smp.1 smp.2).1
            (steer cfg.stepSize nearest.x nearest.y smp.1 smp.2).2 = true
        · rw [if_pos hfree]
          have hinv1 : BaseInv start (ns ++
              [⟨(steer cfg.stepSize nearest.x nearest.y smp.1 smp.2).1,
                (steer cfg.stepSize nearest.x nearest.y smp.1 smp.2).2,
                some ((findNearest ns smp.1 smp.2).getD 0), 0⟩]) :=
            BaseInv_append h _ rfl (lt_of_get?_some hnear)
          by_cases hcap : distR (steer cfg.stepSize nearest.x nearest.y smp.1 smp.2) goal
              < cfg.goalThreshold
          · rw [if_pos hcap]
            right
            set ns1 := ns ++
              [(⟨(steer cfg.stepSize nearest.x nearest.y smp.1 smp.2).1,
                (steer cfg.stepSize nearest.x nearest.y smp.1 smp.2).2,
                some ((findNearest ns smp.1 smp.2).getD 0), 0⟩ : RRTNode)] with hns1
            set ns2 := ns1 ++ [(⟨goal.1, goal.2, some ns.length, 0⟩ : RRTNode)] with hns2
            have hlen1 : ns1.length = ns.length + 1 := by simp [hns1]
            have hinv2 : BaseInv start ns2 :=
              BaseInv_append hinv1 _ rfl (by omega)
            have hblt : ns.length < ns2.length := by simp [hns2]; omega
            rcases BaseInv_chain hinv2 ns.length hblt with ⟨l, hc, hval, hlchain⟩
            exact extractPath_endpoints
              (by rcases hinv2.1 with ⟨n0, h0, hx, hy, -⟩; exact ⟨n0, h0, hx, hy⟩)
              hinv2.2.1 hc hval (by omega) goal
          · rw [if_neg hcap]
            exact ih _ hinv1
        · rw [if_neg hfree]
          exact ih ns h

/-! ## The A* search invariant

The node table is an arborescence keyed by coordinates: the start node
is the unique parentless entry, parents are always already-closed
coordinates with entries of their own, and every entry has a full parent
chain whose tail lies in the closed set (which bounds its length, since
chains never repeat a coordinate). -/

def parentMapA (nodes : Coord → Option AEntry) : Coord → Option Coord :=
  fun c => (nodes c).bind AEntry.parent

theorem nodup_subset_length {α : Type} [DecidableEq α] {l l' : List α}
    (h : l.Nodup) (hs : l ⊆ l') : l.length ≤ l'.length := by
  calc l.length = l.toFinset.card := (List.toFinset_card_of_nodup h).symm
    _ ≤ l'.toFinset.card := by
        refine Finset.card_le_card ?_
        intro a ha
        rw [List.mem_toFinset] at ha ⊢
        exact hs ha
    _ ≤ l'.length := l'.toFinset_card_le

structure AInv (start : Coord) (st : AState) : Prop where
  start_mem : ∃ e, st.nodes start = some e ∧ e.parent = none
  root_only : ∀ c e, st.nodes c = some e → e.parent = none → c = start
  parent_closed : ∀ c e p, st.nodes c = some e → e.parent = some p →
    p ∈ st.closed ∧ ∃ ep, st.nodes p = some ep
  open_mem : ∀ c ∈ st.openL, ∃ e, st.nodes c = some e
  chains : ∀ c e, st.nodes c = some e → ∃ l, PChain (parentMapA st.nodes) c l ∧
    (∀ k ∈ l, ∃ ek, st.nodes k = some ek) ∧ l.tail ⊆ st.closed
  init_open : st.closed = [] → st.openL = [start]
  closed_start : st.closed ≠ [] → start ∈ st.closed

theorem AInv_init (grid : GridMap) (start goal : Coord) :
    AInv start (initAState start goal) := by
  refine ⟨⟨⟨0, heuristic start.1 start.2 goal.1 goal.2, none⟩, by simp [initAState], rfl⟩,
    ?_, ?_, ?_, ?_, fun _ => rfl, fun h => absurd rfl h⟩
  · intro c e hce _
    simp only [initAState] at hce
    by_cases hc : c = start
    · exact hc
    · rw [if_neg hc] at hce
      cases hce
  · intro c e p hce hp
    simp only [initAState] at hce
    by_cases hc : c = start
    · rw [if_pos hc] at hce
      injection hce with hce
      rw [← hce] at hp
      cases hp
    · rw [if_neg hc] at hce
      cases hce
  · intro c hc
    simp only [initAState] at hc
    rcases List.mem_singleton.mp hc with rfl
    exact ⟨⟨0, heuristic c.1 c.2 goal.1 goal.2, none⟩, by simp [initAState]⟩
  · intro c e hce
    simp only [initAState] at hce ⊢
    by_cases hc : c = start
    · subst hc
      refine ⟨[c], PChain.root c ?_, ?_, by simp⟩
      · simp [parentMapA, initAState]
      · intro k hk
        rcases List.mem_singleton.mp hk with rfl
        exact ⟨⟨0, heuristic k.1 k.2 goal.1 goal.2, none⟩, by simp [initAState]⟩
    · rw [if_neg hc] at hce
      cases hce

theorem popMinAux_mem (nodes : Coord → Option AEntry) :
    ∀ (rest : List Coord) (c : Coord), (popMinAux nodes c rest).1 ∈ c :: rest := by
  intro rest
  induction rest with
  | nil => intro c; simp [popMinAux]
  | cons d t ih =>
      intro c
      unfold popMinAux
      by_cases hlt : fVal nodes d < fVal nodes c
      · rw [if_pos hlt]
        have := ih d
        simp only [List.mem_cons] at this ⊢
        tauto
      · rw [if_neg hlt]
        have := ih c
        simp only [List.mem_cons] at this ⊢
        tauto

theorem popMinAux_rest (nodes : Coord → Option AEntry) :
    ∀ (rest : List Coord) (c : Coord) (x : Coord),
      x ∈ (popMinAux nodes c rest).2 → x ∈ c :: rest := by
  intro rest
  induction rest with
  | nil => intro c x hx; simp [popMinAux] at hx
  | cons d t ih =>
      intro c x hx
      unfold popMinAux at hx
      by_cases hlt : fVal nodes d < fVal nodes c
      · rw [if_pos hlt] at hx
        simp only [List.mem_cons] at hx ⊢
        rcases hx with rfl | hx
        · tauto
        · have := ih d x hx
          simp only [List.mem_cons] at this
          tauto
      · rw [if_neg hlt] at hx
        simp only [List.mem_cons] at hx ⊢
        rcases hx with rfl | hx
        · tauto
        · have := ih c x hx
          simp only [List.mem_cons] at this
          tauto

theorem popMin_mem {nodes : Coord → Option AEntry} {openL : List Coord}
    {m : Coord} {rest : List Coord} (h : popMin nodes openL = some (m, rest)) :
    m ∈ openL ∧ ∀ x ∈ rest, x ∈ openL := by
  cases openL with
  | nil => cases h
  | cons c t =>
      unfold popMin at h
      injection h with h
      have h1 : m = (popMinAux nodes c t).1 := by rw [h]
      have h2 : rest = (popMinAux nodes c t).2 := by rw [h]
      constructor
      · rw [h1]
        exact popMinAux_mem nodes t c
      · intro x hx
        refine popMinAux_rest nodes t c x ?_
        rw [← h2]
        exact hx

/-- Common form of the two mutating branches of `relax`: the target
coordinate `n` (not closed) gets an entry whose parent is the closed,
present coordinate `m`, and is pushed onto the open list. -/
theorem AInv_update {start m : Coord} {st : AState} (n : Coord) (eNew : AEntry)
    (h : AInv start st) (hpar : eNew.parent = some m)
    (hm : m ∈ st.closed) (hstart : start ∈ st.closed)
    (hmem : ∃ em, st.nodes m = some em)
    (hnc : n ∉ st.closed) :
    AInv start (relaxUpd st n eNew) := by
  unfold relaxUpd
  have hmn : m ≠ n := fun hh => hnc (hh ▸ hm)
  have hsn : start ≠ n := fun hh => hnc (hh ▸ hstart)
  have hpres : ∀ c feat, st.nodes c = some feat →
      ∃ e', (fun c => if c = n then some eNew else st.nodes c) c = some e' := by
    intro c feat hc
    by_cases hcn : c = n
    · exact ⟨eNew, by simp [hcn]⟩
    · exact ⟨feat, by simp [hcn]; exact hc⟩
  refine ⟨?_, ?_, ?_, ?_, ?_, ?_, ?_⟩
  · rcases h.start_mem with ⟨e0, h0, hp0⟩
    exact ⟨e0, by simp only; rw [if_neg hsn]; exact h0, hp0⟩
  · intro c e hce hp
    simp only at hce
    by_cases hcn : c = n
    · rw [if_pos hcn] at hce
      injection hce with hce
      rw [← hce, hpar] at hp
      cases hp
    · rw [if_neg hcn] at hce
      exact h.root_only c e hce hp
  · intro c e p hce hp
    simp only at hce ⊢
    by_cases hcn : c = n
    · rw [if_pos hcn] at hce
      injection hce with hce
      rw [← hce, hpar] at hp
      injection hp with hp
      subst hp
      rcases hmem with ⟨em, hem⟩
      exact ⟨hm, em, by rw [if_neg hmn]; exact hem⟩
    · rw [if_neg hcn] at hce
      rcases h.parent_closed c e p hce hp with ⟨hpc, ep, hep⟩
      have hpn : p ≠ n := fun hh => hnc (hh ▸ hpc)
      exact ⟨hpc, ep, by rw [if_neg hpn]; exact hep⟩
  · intro c hc
    simp only at hc ⊢
    rcases List.mem_append.mp hc with hc | hc
    · by_cases hcn : c = n
      · exact ⟨eNew, by rw [if_pos hcn]⟩
      · rcases h.open_mem c hc with ⟨e, he⟩
        exact ⟨e, by rw [if_neg hcn]; exact he⟩
    · rcases List.mem_singleton.mp hc with rfl
      exact ⟨eNew, by rw [if_pos rfl]⟩
  · intro c e hce
    simp only at hce ⊢
    rcases hmem with ⟨em, hem⟩
    rcases h.chains m em hem with ⟨lm, hcm, hvalm, htailm⟩
    have hlmclosed : ∀ k ∈ lm, k ∈ st.closed := by
      rcases PChain_shape hcm with ⟨t, rfl⟩
      intro k hk
      rcases List.mem_cons.mp hk with rfl | hk2
      · exact hm
      · exact htailm hk2
    have hlmn : ∀ k ∈ lm, k ≠ n := fun k hk hh => hnc (hh ▸ hlmclosed k hk)
    by_cases hcn : c = n
    · subst hcn
      refine ⟨c :: lm, ?_, ?_, ?_⟩
      · refine PChain.step c m lm ?_ ?_
        · simp [parentMapA, hpar]
        · refine PChain_congr hcm ?_
          intro a ha
          simp [parentMapA, hlmn a ha]
      · intro k hk
        rcases List.mem_cons.mp hk with rfl | hk2
        · exact ⟨eNew, by rw [if_pos rfl]⟩
        · rcases hvalm k hk2 with ⟨ek, hek⟩
          exact ⟨ek, by rw [if_neg (hlmn k hk2)]; exact hek⟩
      · show lm ⊆ _
        intro k hk
        exact hlmclosed k hk
    · rw [if_neg hcn] at hce
      rcases h.chains c e hce with ⟨lc, hcc, hvalc, htailc⟩
      have hlcn : ∀ k ∈ lc, k ≠ n := by
        rcases PChain_shape hcc with ⟨t, rfl⟩
        intro k hk
        rcases List.mem_cons.mp hk with rfl | hk2
        · exact hcn
        · exact fun hh => hnc (hh ▸ htailc hk2)
      refine ⟨lc, ?_, ?_, htailc⟩
      · refine PChain_congr hcc ?_
        intro a ha
        simp [parentMapA, hlcn a ha]
      · intro k hk
        rcases hvalc k hk with ⟨ek, hek⟩
        exact ⟨ek, by rw [if_neg (hlcn k hk)]; exact hek⟩
  · intro hcl
    simp only at hcl
    rw [hcl] at hstart
    cases hstart
  · intro _
    exact hstart

/-- Relaxation of one neighbor preserves the invariant (once start and
the popped node are closed); it never touches the closed set and never
deletes an entry. -/
theorem AInv_relax {start : Coord} (grid : GridMap) (goal m : Coord)
    (st : AState) (d : ℤ × ℤ)
    (h : AInv start st)
    (hm : m ∈ st.closed) (hstart : start ∈ st.closed)
    (hmem : ∃ em, st.nodes m = some em) :
    AInv start (relax grid goal m st d) ∧
      (relax grid goal m st d).closed = st.closed ∧
      (∀ c, (∃ e, st.nodes c = some e) →
        ∃ e', (relax grid goal m st d).nodes c = some e') := by
  have hupd : ∀ (eNew : AEntry), eNew.parent = some m → (m.1 + d.1, m.2 + d.2) ∉ st.closed →
      AInv start (relaxUpd st (m.1 + d.1, m.2 + d.2) eNew) ∧
        (relaxUpd st (m.1 + d.1, m.2 + d.2) eNew).closed = st.closed ∧
        (∀ c, (∃ e, st.nodes c = some e) →
          ∃ e', (relaxUpd st (m.1 + d.1, m.2 + d.2) eNew).nodes c = some e') := by
    intro eNew hpar hnc
    refine ⟨AInv_update _ _ h hpar hm hstart hmem hnc, rfl, ?_⟩
    intro c hc
    unfold relaxUpd
    simp only
    by_cases hcn : c = (m.1 + d.1, m.2 + d.2)
    · exact ⟨eNew, by rw [if_pos hcn]⟩
    · rcases hc with ⟨ec, hec⟩
      exact ⟨ec, by rw [if_neg hcn]; exact hec⟩
  unfold relax
  by_cases hg : (isFree grid (m.1 + d.1) (m.2 + d.2) = true ∧ (m.1 + d.1, m.2 + d.2) ∉ st.closed)
  · rw [if_pos hg]
    split
    · rename_i e he
      by_cases hlt : gOf st.nodes m + stepCost d < e.g
      · rw [if_pos hlt]
        exact hupd _ rfl hg.2
      · rw [if_neg hlt]
        exact ⟨h, rfl, fun c hc => hc⟩
    · exact hupd _ rfl hg.2
  · rw [if_neg hg]
    exact ⟨h, rfl, fun c hc => hc⟩

theorem AInv_expand {start : Coord} (grid : GridMap) (goal : Coord)
    (nbrs : List (ℤ × ℤ)) (st : AState) (m : Coord) (rest : List Coord)
    (h : AInv start st) (hpop : popMin st.nodes st.openL = some (m, rest)) :
    AInv start (expand grid goal nbrs { st with openL := rest } m) := by
  obtain ⟨hmO, hrest⟩ := popMin_mem hpop
  have hmem : ∃ em, st.nodes m = some em := h.open_mem m hmO
  have hstart1 : start ∈ m :: st.closed := by
    cases hcl : st.closed with
    | nil =>
        have hop := h.init_open hcl
        rw [hop] at hmO
        rcases List.mem_singleton.mp hmO with rfl
        exact List.mem_cons_self _ _
    | cons a t =>
        have := h.closed_start (by rw [hcl]; exact List.cons_ne_nil a t)
        rw [hcl] at this
        exact List.mem_cons_of_mem m this
  have h1 : AInv start { st with openL := rest, closed := m :: st.closed } := by
    refine ⟨h.start_mem, h.root_only, ?_, ?_, ?_, ?_, fun _ => hstart1⟩
    · intro c e p hce hp
      rcases h.parent_closed c e p hce hp with ⟨hpc, hep⟩
      exact ⟨List.mem_cons_of_mem m hpc, hep⟩
    · intro c hc
      exact h.open_mem c (hrest c hc)
    · intro c e hce
      rcases h.chains c e hce with ⟨l, hc2, hval, htail⟩
      refine ⟨l, hc2, hval, ?_⟩
      intro k hk
      exact List.mem_cons_of_mem m (htail hk)
    · intro hcl
      cases hcl
  have hfold : ∀ (ds : List (ℤ × ℤ)) (s : AState), AInv start s → m ∈ s.closed →
      start ∈ s.closed → (∃ em, s.nodes m = some em) →
      AInv start (ds.foldl (relax grid goal m) s) := by
    intro ds
    induction ds with
    | nil => intro s hs _ _ _; exact hs
    | cons d t ih =>
        intro s hs hm2 hst2 hmem2
        rw [List.foldl_cons]
        obtain ⟨hinv', hcl', hpres'⟩ := AInv_relax grid goal m s d hs hm2 hst2 hmem2
        exact ih (relax grid goal m s d) hinv' (hcl' ▸ hm2) (hcl' ▸ hst2) (hpres' m hmem2)
  show AInv start (nbrs.foldl (relax grid goal m) _)
  exact hfold nbrs _ h1 (List.mem_cons_self _ _) hstart1 hmem

theorem reconstructAux_succ (nodes : Coord → Option AEntry) (fuel : ℕ)
    (c : Coord) (e : AEntry) (hn : nodes c = some e) :
    reconstructAux nodes (fuel + 1) c =
      c :: (match e.parent with
        | some p => reconstructAux nodes fuel p
        | none => []) := by
  simp [reconstructAux, hn]

/-- `_reconstruct_path`'s backward walk visits exactly the parent
chain. -/
theorem reconstructAux_chain (nodes : Coord → Option AEntry) {c : Coord} {l : List Coord}
    (h : PChain (parentMapA nodes) c l) :
    ∀ fuel, l.length ≤ fuel → (∀ k ∈ l, ∃ e, nodes k = some e) →
      reconstructAux nodes fuel c = l := by
  induction h with
  | root k hk =>
      intro fuel hfuel hval
      rcases hval k (by simp) with ⟨e, he⟩
      have hpar : e.parent = none := by
        unfold parentMapA at hk
        rw [he] at hk
        simpa using hk
      cases fuel with
      | zero => simp at hfuel
      | succ fuel =>
          rw [reconstructAux_succ nodes fuel k e he, hpar]
  | step k j m hk hchain ih =>
      intro fuel hfuel hval
      rcases hval k (by simp) with ⟨e, he⟩
      have hpar : e.parent = some j := by
        unfold parentMapA at hk
        rw [he] at hk
        simpa using hk
      cases fuel with
      | zero => simp at hfuel
      | succ fuel =>
          rw [reconstructAux_succ nodes fuel k e he, hpar]
          show k :: reconstructAux nodes fuel j = k :: m
          rw [ih fuel (by simp only [List.length_cons] at hfuel; omega)
            (fun a ha => hval a (by simp [ha]))]

/-- Endpoint property of the A* main loop: for every fuel and every
state satisfying the invariant, the loop returns the empty sequence or a
path whose first element is `start` and whose last element is the
goal. -/
theorem aLoop_endpoints {start : Coord} (grid : GridMap) (goal : Coord)
    (nbrs : List (ℤ × ℤ)) :
    ∀ (fuel : ℕ) (st : AState), AInv start st →
      aLoop grid goal nbrs fuel st = [] ∨
        ((aLoop grid goal nbrs fuel st).head? = some start ∧
          (aLoop grid goal nbrs fuel st).getLast? = some goal) := by
  intro fuel
  induction fuel with
  | zero => intro st _; exact Or.inl rfl
  | succ fuel ih =>
      intro st h
      rcases hpop : popMin st.nodes st.openL with _ | ⟨m, rest⟩
      · left
        simp [aLoop, hpop]
      · have hstep : aLoop grid goal nbrs (fuel + 1) st = (if m = goal then reconstructA st.nodes (st.closed.length + 2) m else aLoop grid goal nbrs fuel (expand grid goal nbrs { st with openL := rest } m)) := by
          simp only [aLoop, hpop]
        rw [hstep]
        by_cases hgoal : m = goal
        · rw [if_pos hgoal]
          right
          obtain ⟨hmO, -⟩ := popMin_mem hpop
          rcases h.open_mem m hmO with ⟨e, he⟩
          rcases h.chains m e he with ⟨l, hc, hval, htail⟩
          have hrec : reconstructAux st.nodes (st.closed.length + 2) m = l := by
            refine reconstructAux_chain st.nodes hc _ ?_ hval
            rcases PChain_shape hc with ⟨t, rfl⟩
            have hnd : (m :: t).Nodup := PChain_nodup hc
            have : t.length ≤ st.closed.length :=
              nodup_subset_length (List.nodup_cons.mp hnd).2 htail
            simp only [List.length_cons]
            omega
          unfold reconstructA
          rw [hrec]
          constructor
          · rw [List.head?_reverse]
            rcases PChain_last hc with ⟨t, r, hl, hr⟩
            rcases hval r (by rw [hl]; simp) with ⟨er, her⟩
            have hparr : er.parent = none := by
              unfold parentMapA at hr
              rw [her] at hr
              simpa using hr
            have hr0 : r = start := h.root_only r er her hparr
            rw [hl, List.getLast?_concat, hr0]
          · rw [List.getLast?_reverse]
            rcases PChain_shape hc with ⟨t, rfl⟩
            rw [List.head?_cons, hgoal]
        · rw [if_neg hgoal]
          exact ih _ (AInv_expand grid goal nbrs st m rest h hpop)

/-- C1: For every planner (`AStarPlanner.plan`, `RRTPlanner.plan`,
`RRTStarPlanner.plan`) and every start/goal input, whenever `plan`
returns a non-empty sequence of waypoints, the first element of that
sequence equals `start` and the last element equals `goal`. -/
theorem c1_path_endpoints (start goal : Coord) (p q : ℝ × ℝ) :
    (∀ (fuel : ℕ) (grid : GridMap) (allowDiagonal : Bool),
      planAStar fuel grid allowDiagonal start goal = [] ∨
        ((planAStar fuel grid allowDiagonal start goal).head? = some start ∧
          (planAStar fuel grid allowDiagonal start goal).getLast? = some goal)) ∧
    (∀ (cfg : RRTConfig) (samples : List (ℝ × ℝ)),
      rrtPlan cfg p q samples = [] ∨
        ((rrtPlan cfg p q samples).head? = some p ∧
          (rrtPlan cfg p q samples).getLast? = some q)) ∧
    (∀ (cfg : RRTConfig) (samples : List (ℝ × ℝ)),
      starPlan cfg p q samples = [] ∨
        ((starPlan cfg p q samples).head? = some p ∧
          (starPlan cfg p q samples).getLast? = some q)) := by
  refine ⟨?_, ?_, ?_⟩
  · intro fuel grid allowDiagonal
    cases hs : isFree grid start.1 start.2 with
    | false => left; simp [planAStar, hs]
    | true =>
        cases hg : isFree grid goal.1 goal.2 with
        | false => left; simp [planAStar, hs, hg]
        | true =>
            have hred : planAStar fuel grid allowDiagonal start goal =
                aLoop grid goal (bif allowDiagonal then NEIGHBORS8 else NEIGHBORS4) fuel
                  (initAState start goal) := by
              simp [planAStar, hs, hg]
            rw [hred]
            exact aLoop_endpoints grid goal _ fuel _ (AInv_init grid start goal)
  · intro cfg samples
    exact rrtLoop_endpoints cfg p q samples [initNode p] (BaseInv_init p)
  · intro cfg samples
    obtain ⟨hstar, hbest⟩ := starLoop_SInv cfg q samples (initStar p) (SInv_init p)
    cases hb : (starLoop cfg q (initStar p) samples).best with
    | none => left; simp [starPlan, hb]
    | some b =>
        have hred : starPlan cfg p q samples =
            extractPath (starLoop cfg q (initStar p) samples).ns q (some b) := by
          simp [starPlan, hb]
        rw [hred]
        right
        have hblen : b < (starLoop cfg q (initStar p) samples).ns.length := hbest b hb
        obtain ⟨l, hchain, hval, -⟩ := hstar.chains b hblen
        rcases hstar.root_node with ⟨n0, h0, hx, hy, -, -⟩
        refine extractPath_endpoints ⟨n0, h0, hx, hy⟩ hstar.root_only hchain hval ?_ q
        exact (nodup_lt_length_le (PChain_nodup hchain) hval).trans (by omega)

theorem isPathCollisionFree_nil (x1 y1 x2 y2 : ℝ) :
    isPathCollisionFree [] x1 y1 x2 y2 = true := by
  simp [isPathCollisionFree, isCollisionFree]

theorem starCandidates_cons (cfg : RRTConfig) (goal : ℝ × ℝ) (s : StarState)
    (smp : ℝ × ℝ) (rest : List (ℝ × ℝ)) :
    starCandidates cfg goal s (smp :: rest) =
      candSeg cfg goal s smp ++ starCandidates cfg goal (starStep cfg goal s smp) rest := by
  rfl

theorem minFold_append (a : Option ℝ) (l1 l2 : List ℝ) :
    minFold a (l1 ++ l2) = minFold (minFold a l1) l2 := by
  simp [minFold, List.foldl_append]

theorem minFold_min :
    ∀ (l : List ℝ) (a : Option ℝ) (m : ℝ), minFold a l = some m →
      (m ∈ l ∨ a = some m) ∧ (∀ c ∈ l, m ≤ c) ∧ (∀ b, a = some b → m ≤ b) := by
  intro l
  induction l with
  | nil =>
      intro a m h
      refine ⟨Or.inr h, ?_, ?_⟩
      · intro c hc; cases hc
      · intro b hb
        have : some b = some m := hb.symm.trans h
        injection this with hbm
        exact le_of_eq hbm.symm
  | cons c t ih =>
      intro a m h
      cases a with
      | none =>
          have h2 : minFold (some c) t = some m := h
          obtain ⟨h1, h2, h3⟩ := ih _ m h2
          have hmc : m ≤ c := h3 c rfl
          refine ⟨?_, ?_, ?_⟩
          · rcases h1 with hm | hm
            · exact Or.inl (List.mem_cons_of_mem c hm)
            · injection hm with hm
              exact Or.inl (hm ▸ List.mem_cons_self c t)
          · intro x hx
            rcases List.mem_cons.mp hx with rfl | hx2
            · exact hmc
            · exact h2 x hx2
          · intro b hb; cases hb
      | some b0 =>
          have hstep : minFold (some b0) (c :: t) =
              minFold (if c < b0 then some c else some b0) t := rfl
          rw [hstep] at h
          by_cases hcb : c < b0
          · rw [if_pos hcb] at h
            obtain ⟨h1, h2, h3⟩ := ih _ m h
            have hmc : m ≤ c := h3 c rfl
            refine ⟨?_, ?_, ?_⟩
            · rcases h1 with hm | hm
              · exact Or.inl (List.mem_cons_of_mem c hm)
              · injection hm with hm
                exact Or.inl (hm ▸ List.mem_cons_self c t)
            · intro x hx
              rcases List.mem_cons.mp hx with rfl | hx2
              · exact hmc
              · exact h2 x hx2
            · intro b hb
              injection hb with hb
              subst hb
              exact hmc.trans (le_of_lt hcb)
          · rw [if_neg hcb] at h
            obtain ⟨h1, h2, h3⟩ := ih _ m h
            have hmb : m ≤ b0 := h3 b0 rfl
            refine ⟨?_, ?_, ?_⟩
            · rcases h1 with hm | hm
              · exact Or.inl (List.mem_cons_of_mem c hm)
              · exact Or.inr hm
            · intro x hx
              rcases List.mem_cons.mp hx with rfl | hx2
              · exact hmb.trans (not_lt.mp hcb)
              · exact h2 x hx2
            · intro b hb
              injection hb with hb
              subst hb
              exact hmb
  
theorem starStep_best (cfg : RRTConfig) (goal : ℝ × ℝ) (s : StarState) (smp : ℝ × ℝ)
    (hsync : s.best = none ↔ s.bestCost = none) :
    (starStep cfg goal s smp).bestCost = minFold s.bestCost (candSeg cfg goal s smp) ∧
      ((starStep cfg goal s smp).best = none ↔ (starStep cfg goal s smp).bestCost = none) := by
  cases hx : starExtend cfg s smp with
  | none =>
      rw [starStep_none hx]
      have hseg : candSeg cfg goal s smp = [] := by simp [candSeg, hx]
      rw [hseg]
      exact ⟨rfl, hsync⟩
  | some info =>
      rw [starStep_some hx]
      have hseg : candSeg cfg goal s smp =
          if distR info.q goal < cfg.goalThreshold then
            [((((info.nearby.foldl (rewireOne cfg.obstacles info.newIdx) info.ns1).get?
                  info.newIdx).map RRTNode.cost).getD 0)]
          else [] := by simp [candSeg, hx]
      rw [hseg]
      by_cases hcap : distR info.q goal < cfg.goalThreshold
      · cases hbc : s.bestCost with
        | none =>
            constructor
            · simp [minFold, hbc, hcap]
            · simp [hbc, hcap]
        | some bc =>
            by_cases hlt : ((((info.nearby.foldl (rewireOne cfg.obstacles info.newIdx)
                info.ns1).get? info.newIdx).map RRTNode.cost).getD 0) < bc
            · simp only [List.get?_eq_getElem?] at hlt
              constructor
              · simp [minFold, hbc, hcap, hlt]
              · simp [hbc, hcap, hlt]
            · simp only [List.get?_eq_getElem?] at hlt
              have hbs : ∃ b, s.best = some b := by
                cases hb : s.best with
                | none => exact absurd (hsync.mp hb) (by simp [hbc])
                | some b => exact ⟨b, rfl⟩
              rcases hbs with ⟨b, hb⟩
              constructor
              · simp [minFold, hbc, hcap, hlt]
              · simp [hb, hbc, hcap, hlt]
      · constructor
        · simp [minFold, hcap]
        · simp [hcap]
          exact hsync

theorem starLoop_best (cfg : RRTConfig) (goal : ℝ × ℝ) :
    ∀ (samples : List (ℝ × ℝ)) (s : StarState), (s.best = none ↔ s.bestCost = none) →
      (starLoop cfg goal s samples).bestCost =
          minFold s.bestCost (starCandidates cfg goal s samples) ∧
        ((starLoop cfg goal s samples).best = none ↔
          (starLoop cfg goal s samples).bestCost = none) := by
  intro samples
  induction samples with
  | nil => intro s hsync; exact ⟨rfl, hsync⟩
  | cons smp rest ih =>
      intro s hsync
      obtain ⟨hstep, hsync2⟩ := starStep_best cfg goal s smp hsync
      have hloop : starLoop cfg goal s (smp :: rest) =
          starLoop cfg goal (starStep cfg goal s smp) rest := rfl
      rw [hloop, starCandidates_cons, minFold_append, ← hstep]
      exact ih (starStep cfg goal s smp) hsync2

/-- C5: `RRTStarPlanner.plan` does not return on first capture: the loop
is a fold over the whole iteration budget (first conjunct: it always
continues through the remaining samples); every new node within
`goal_threshold` is recorded only as a candidate and the retained
`best_cost` is exactly the running minimum of the candidate costs (second
and fourth conjuncts); only after all iterations does extraction happen,
with the empty sequence when no candidate was found (third conjunct).  In
contrast the base `RRTPlanner.plan` returns immediately on the first
capture, ignoring all remaining samples (fifth conjunct). -/
theorem c5_deferred_goal (cfg : RRTConfig) (start goal : ℝ × ℝ) :
    (∀ (s : StarState) (xs ys : List (ℝ × ℝ)),
      starLoop cfg goal s (xs ++ ys) = starLoop cfg goal (starLoop cfg goal s xs) ys) ∧
    (∀ samples : List (ℝ × ℝ),
      (starLoop cfg goal (initStar start) samples).bestCost =
        minFold none (starCandidates cfg goal (initStar start) samples)) ∧
    (∀ samples : List (ℝ × ℝ),
      starCandidates cfg goal (initStar start) samples = [] →
        starPlan cfg start goal samples = []) ∧
    (∀ (samples : List (ℝ × ℝ)) (m : ℝ),
      (starLoop cfg goal (initStar start) samples).bestCost = some m →
        m ∈ starCandidates cfg goal (initStar start) samples ∧
          ∀ c ∈ starCandidates cfg goal (initStar start) samples, m ≤ c) ∧
    (∀ (ns : List RRTNode) (smp : ℝ × ℝ) (rest rest2 : List (ℝ × ℝ)),
      rrtCaptureB cfg goal ns smp = true →
        rrtLoop cfg goal ns (smp :: rest) = rrtLoop cfg goal ns (smp :: rest2)) := by
  have hsync0 : (initStar start).best = none ↔ (initStar start).bestCost = none := by
    simp [initStar]
  refine ⟨?_, ?_, ?_, ?_, ?_⟩
  · intro s xs ys
    simp [starLoop, List.foldl_append]
  · intro samples
    exact (starLoop_best cfg goal samples (initStar start) hsync0).1
  · intro samples hempty
    obtain ⟨hbc, hs⟩ := starLoop_best cfg goal samples (initStar start) hsync0
    rw [hempty] at hbc
    have hbest : (starLoop cfg goal (initStar start) samples).best = none :=
      hs.mpr hbc
    simp [starPlan, hbest]
  · intro samples m hm
    rw [(starLoop_best cfg goal samples (initStar start) hsync0).1] at hm
    obtain ⟨h1, h2, -⟩ := minFold_min _ none m hm
    refine ⟨?_, h2⟩
    rcases h1 with h1 | h1
    · exact h1
    · cases h1
  · intro ns smp rest rest2 hcap
    simp only [rrtCaptureB] at hcap
    cases hnear : ns.get? ((findNearest ns smp.1 smp.2).getD 0) with
    | none => rw [hnear] at hcap; cases hcap
    | some nearest =>
        rw [hnear] at hcap
        simp only [Bool.and_eq_true, decide_eq_true_eq] at hcap
        simp only [rrtLoop, hnear]
        rw [if_pos hcap.1, if_pos hcap.2, if_pos hcap.1, if_pos hcap.2]

/-- Closed instantiation of `c5_deferred_goal`: a trivially empty
RRT* run yields the empty path, and a base-planner run that captures the
goal on its first sample is unchanged by appending further samples. -/
theorem c5_deferred_goal_witness :
    starCandidates ⟨[], 1, 1, 1⟩ ((0 : ℝ), (0 : ℝ)) (initStar (0, 0)) [] = [] ∧
    starPlan ⟨[], 1, 1, 1⟩ ((0 : ℝ), (0 : ℝ)) ((0 : ℝ), (0 : ℝ)) [] = [] ∧
    rrtCaptureB ⟨[], 1, 1, 1⟩ ((0 : ℝ), (0 : ℝ)) [initNode (0, 0)] (0, 0) = true ∧
    rrtLoop ⟨[], 1, 1, 1⟩ ((0 : ℝ), (0 : ℝ)) [initNode (0, 0)] [(0, 0)] =
      rrtLoop ⟨[], 1, 1, 1⟩ ((0 : ℝ), (0 : ℝ)) [initNode (0, 0)] [(0, 0), (5, 5)] := by
  have h := c5_deferred_goal ⟨[], 1, 1, 1⟩ (0, 0) (0, 0)
  have hd0 : distR ((0 : ℝ), (0 : ℝ)) ((0 : ℝ), (0 : ℝ)) = 0 := by
    simp [distR]
  have hfn : findNearest [initNode ((0 : ℝ), (0 : ℝ))] 0 0 = some 0 := by
    simp [findNearest, List.enum, List.enumFrom]
  have hq : steer 1 0 0 0 0 = ((0 : ℝ), (0 : ℝ)) := by
    rw [steer_eq, if_pos (by norm_num)]
  have hcap : rrtCaptureB ⟨[], 1, 1, 1⟩ ((0 : ℝ), (0 : ℝ)) [initNode (0, 0)] (0, 0) = true := by
    simp only [rrtCaptureB, hfn, initNode, Option.getD_some, List.get?]
    simp only [initNode] at hq
    rw [hq]
    have hd0z : distR (0 : ℝ × ℝ) 0 = 0 := by simp [distR]
    simp [isPathCollisionFree_nil, hd0, hd0z]
  exact ⟨rfl, h.2.2.1 [] rfl, hcap, h.2.2.2.2 [initNode (0, 0)] (0, 0) [] [(5, 5)] hcap⟩

theorem scanl_all {α β : Type} (f : β → α → β) (P : β → Prop) :
    ∀ (l : List α) (b : β), P b → (∀ x a, P x → P (f x a)) →
      ∀ y ∈ l.scanl f b, P y := by
  intro l
  induction l with
  | nil =>
      intro b hb _ y hy
      simp only [List.scanl] at hy
      rcases List.mem_singleton.mp hy with rfl
      exact hb
  | cons a t ih =>
      intro b hb hstep y hy
      rw [List.scanl_cons] at hy
      rcases List.mem_cons.mp hy with rfl | hy2
      · exact hb
      · exact ih (f b a) (hstep b a hb) hstep y hy2

theorem parentMap_some_lt {ns : List RRTNode} {a b : ℕ}
    (h : parentMap ns a = some b) : a < ns.length := by
  unfold parentMap at h
  cases hg : ns.get? a with
  | none => rw [hg] at h; cases h
  | some n => exact lt_of_get?_some hg

/-- An ancestor (along the parent graph) has a strictly shorter parent
chain, for any tree state satisfying the RRT* invariant. -/
theorem StarInv.transGen_chain_lt {start : ℝ × ℝ} {ns : List RRTNode}
    (h : StarInv start ns) :
    ∀ a b, Relation.TransGen (fun x y => parentMap ns x = some y) a b →
      ∀ la lb, PChain (parentMap ns) a la → PChain (parentMap ns) b lb →
        lb.length < la.length := by
  intro a b hTG
  induction hTG with
  | single hr =>
      rename_i b1
      intro la lb hca hcb
      have heq : la = a :: lb := PChain_unique hca (PChain.step a b1 lb hr hcb)
      rw [heq]
      simp
  | tail hTG2 hr ih =>
      rename_i b1 c1
      intro la lc hca hcc
      have hb1 : b1 < ns.length := parentMap_some_lt hr
      obtain ⟨lb, hcb, -, -⟩ := h.chains b1 hb1
      have h1 : lb.length < la.length := ih la lb hca hcb
      have h2 : lb = b1 :: lc := PChain_unique hcb (PChain.step b1 c1 lc hr hcc)
      have h3 : lc.length < lb.length := by rw [h2]; simp
      omega

/-- Every tree state satisfying the RRT* invariant is a rooted
arborescence. -/
theorem StarInv_arborescent {start : ℝ × ℝ} {ns : List RRTNode}
    (h : StarInv start ns) : Arborescence ns := by
  have hacyc : ∀ i, ¬ Relation.TransGen (fun x y => parentMap ns x = some y) i i := by
    intro i hTG
    have hi : i < ns.length := by
      obtain ⟨c, hr, -⟩ := Relation.TransGen.head'_iff.mp hTG
      exact parentMap_some_lt hr
    obtain ⟨l, hc, -, -⟩ := h.chains i hi
    exact absurd (h.transGen_chain_lt i i hTG l l hc hc) (lt_irrefl _)
  refine ⟨?_, h.root_only, hacyc⟩
  intro i n j hin hpar
  refine ⟨h.parent_lt i n j hin hpar, ?_⟩
  intro hij
  refine hacyc i (Relation.TransGen.single ?_)
  unfold parentMap
  rw [hin]
  simp [hpar, hij]

/-- Every tree state satisfying the base-planner invariant is a rooted
arborescence (parents even point strictly earlier). -/
theorem BaseInv_arborescent {start : ℝ × ℝ} {ns : List RRTNode}
    (h : BaseInv start ns) : Arborescence ns := by
  have hdec : ∀ a b, parentMap ns a = some b → b < a := by
    intro a b hab
    unfold parentMap at hab
    cases hg : ns.get? a with
    | none => rw [hg] at hab; cases hab
    | some n =>
        rw [hg] at hab
        simp only [Option.some_bind] at hab
        exact h.2.2 a n b hg hab
  have hTGdec : ∀ a b, Relation.TransGen (fun x y => parentMap ns x = some y) a b →
      b < a := by
    intro a b hTG
    induction hTG with
    | single hr => exact hdec _ _ hr
    | tail hTG2 hr ih => exact lt_trans (hdec _ _ hr) ih
  refine ⟨?_, h.2.1, fun i hTG => absurd (hTGdec i i hTG) (lt_irrefl i)⟩
  intro i n j hin hpar
  have hji : j < i := h.2.2 i n j hin hpar
  exact ⟨lt_trans hji (lt_of_get?_some hin), Nat.ne_of_lt hji⟩

theorem starTraceAux_cons (cfg : RRTConfig) (goal : ℝ × ℝ) (s : StarState)
    (smp : ℝ × ℝ) (rest : List (ℝ × ℝ)) :
    starTraceAux cfg goal s (smp :: rest) =
      (match starExtend cfg s smp with
        | none => []
        | some info => info.nearby.scanl (rewireOne cfg.obstacles info.newIdx) info.ns1) ++
        starTraceAux cfg goal (starStep cfg goal s smp) rest := by
  rfl

/-- Every intermediate tree state of an RRT* run (after the insertion
and after each individual rewiring step) satisfies the tree
invariant. -/
theorem starTraceAux_inv {start : ℝ × ℝ} (cfg : RRTConfig) (goal : ℝ × ℝ) :
    ∀ (samples : List (ℝ × ℝ)) (s : StarState), SInv start s →
      ∀ tr ∈ starTraceAux cfg goal s samples, StarInv start tr := by
  intro samples
  induction samples with
  | nil =>
      intro s _ tr htr
      cases htr
  | cons smp rest ih =>
      intro s hs tr htr
      rw [starTraceAux_cons] at htr
      rcases List.mem_append.mp htr with htr | htr
      · cases hx : starExtend cfg s smp with
        | none => simp only [hx] at htr; cases htr
        | some info =>
            simp only [hx] at htr
            obtain ⟨hinv1, -, -⟩ := starExtend_spec hs.1 hx
            exact scanl_all (rewireOne cfg.obstacles info.newIdx) (StarInv start)
              info.nearby info.ns1 hinv1
              (fun x a hx2 => StarInv_rewireOne hx2 cfg.obstacles info.newIdx a) tr htr
      · exact ih (starStep cfg goal s smp) (starStep_SInv cfg goal hs smp) tr htr

/-- Every intermediate tree state of a base-planner run satisfies the
base invariant. -/
theorem rrtTraceAux_inv {start : ℝ × ℝ} (cfg : RRTConfig) (goal : ℝ × ℝ) :
    ∀ (samples : List (ℝ × ℝ)) (ns : List RRTNode), BaseInv start ns →
      ∀ tr ∈ rrtTraceAux cfg goal ns samples, BaseInv start tr := by
  intro samples
  induction samples with
  | nil =>
      intro ns _ tr htr
      cases htr
  | cons smp rest ih =>
      intro ns h tr htr
      unfold rrtTraceAux at htr
      revert htr
      split
      · intro htr; cases htr
      · rename_i nearest hnear
        by_cases hfree : isPathCollisionFree cfg.obstacles nearest.x nearest.y
            (steer cfg.stepSize nearest.x nearest.y smp.1 smp.2).1
            (steer cfg.stepSize nearest.x nearest.y smp.1 smp.2).2 = true
        · rw [if_pos hfree]
          have hinv1 : BaseInv start (ns ++
              [⟨(steer cfg.stepSize nearest.x nearest.y smp.1 smp.2).1,
                (steer cfg.stepSize nearest.x nearest.y smp.1 smp.2).2,
                some ((findNearest ns smp.1 smp.2).getD 0), 0⟩]) :=
            BaseInv_append h _ rfl (lt_of_get?_some hnear)
          by_cases hcap : distR (steer cfg.stepSize nearest.x nearest.y smp.1 smp.2) goal
              < cfg.goalThreshold
          · rw [if_pos hcap]
            intro htr
            rcases List.mem_cons.mp htr with rfl | htr2
            · exact hinv1
            · rcases List.mem_singleton.mp htr2 with rfl
              refine BaseInv_append hinv1 _ rfl ?_
              simp only [List.length_append, List.length_singleton]
              omega
          · rw [if_neg hcap]
            intro htr
            rcases List.mem_cons.mp htr with rfl | htr2
            · exact hinv1
            · exact ih _ hinv1 tr htr2
        · rw [if_neg hfree]
          intro htr
          exact ih ns h tr htr

/-- C6, amended: in every tree state reachable during a plan call of
either planner (including the state after every individual rewiring
step of RRT*), the tree is a rooted arborescence — parent indices are
valid and never self-referential, only the root is parentless, and no
node is its own ancestor.  For the base planner, parents moreover always
point strictly earlier in the node sequence.  (The original claim's
"earlier in, or equal to" is refuted for RRT* by
`c6_parent_later_counterexample`: rewiring can point an existing node's
parent at the strictly later, newly inserted node.) -/
theorem c6_amended_arborescent (cfg : RRTConfig) (start goal : ℝ × ℝ)
    (samples : List (ℝ × ℝ)) :
    (∀ tr ∈ starTrace cfg start goal samples, Arborescence tr) ∧
    (∀ tr ∈ rrtTrace cfg start goal samples,
      Arborescence tr ∧ ∀ i n j, tr.get? i = some n → n.parent = some j → j < i) := by
  constructor
  · intro tr htr
    rcases List.mem_cons.mp htr with rfl | htr2
    · exact StarInv_arborescent (SInv_init start).1
    · exact StarInv_arborescent
        (starTraceAux_inv cfg goal samples (initStar start) (SInv_init start) tr htr2)
  · intro tr htr
    have hbase : BaseInv start tr := by
      rcases List.mem_cons.mp htr with rfl | htr2
      · exact BaseInv_init start
      · exact rrtTraceAux_inv cfg goal samples [initNode start] (BaseInv_init start) tr htr2
    exact ⟨BaseInv_arborescent hbase, hbase.2.2⟩

/-- Closed instantiation of `c6_amended_arborescent` at the initial
state of a trivial run. -/
theorem c6_amended_arborescent_witness :
    [initNode ((0 : ℝ), (0 : ℝ))] ∈ starTrace ⟨[], 1, 1, 1⟩ (0, 0) (0, 0) [] ∧
      Arborescence [initNode ((0 : ℝ), (0 : ℝ))] :=
  ⟨by simp [starTrace],
    (c6_amended_arborescent ⟨[], 1, 1, 1⟩ (0, 0) (0, 0) []).1 _ (by simp [starTrace])⟩

theorem sqrt_100 : Real.sqrt 100 = 10 := by
  rw [show (100 : ℝ) = 10 ^ 2 by norm_num, Real.sqrt_sq (by norm_num : (0 : ℝ) ≤ 10)]

theorem sqrt_36 : Real.sqrt 36 = 6 := by
  rw [show (36 : ℝ) = 6 ^ 2 by norm_num, Real.sqrt_sq (by norm_num : (0 : ℝ) ≤ 6)]

theorem sqrt_64 : Real.sqrt 64 = 8 := by
  rw [show (64 : ℝ) = 8 ^ 2 by norm_num, Real.sqrt_sq (by norm_num : (0 : ℝ) ≤ 8)]

theorem sqrt_256 : Real.sqrt 256 = 16 := by
  rw [show (256 : ℝ) = 16 ^ 2 by norm_num, Real.sqrt_sq (by norm_num : (0 : ℝ) ≤ 16)]

theorem distR_eq_of_sq {p q : ℝ × ℝ} {d : ℝ} (hd : 0 ≤ d)
    (h : (p.1 - q.1) ^ 2 + (p.2 - q.2) ^ 2 = d ^ 2) : distR p q = d := by
  unfold distR
  rw [h, Real.sqrt_sq hd]

/-- C6 counterexample: the claim's "parent points to a node earlier in,
or equal to, the owning sequence" is false for RRT*: in the concrete
obstacle-free run with `step_size = 10`, `neighbor_radius = 11`,
`goal_threshold = 0`, start `(0,0)` and samples
`(6,8), (0,16), (0,8)`, the third iteration rewires node 2 (at `(0,16)`,
walked cost 20) through the newly appended node 3 (at `(0,8)`, cost 8,
giving `16 < 20`), so node 2's parent reference points at index 3 —
strictly later in the owning sequence. -/
theorem c6_parent_later_counterexample :
    ∃ n, (starLoop ⟨[], 10, 11, 0⟩ (0, 0) (initStar (0, 0))
        [(6, 8), (0, 16), (0, 8)]).ns.get? 2 = some n ∧
      n.parent = some 3 ∧ (2 : ℕ) < 3 := by
  have hnn : ∀ p q : ℝ × ℝ, ¬ distR p q < 0 := fun p q => not_lt.mpr (distR_nonneg p q)
  have f1 : distR (0 : ℝ × ℝ) (6, 8) = 10 := distR_eq_of_sq (by norm_num) (by norm_num)
  have f1b : distR ((0 : ℝ), (0 : ℝ)) (6, 8) = 10 := distR_eq_of_sq (by norm_num) (by norm_num)
  have f2 : distR (6, 8) (0, 16) = 10 := distR_eq_of_sq (by norm_num) (by norm_num)
  have f3 : distR (0 : ℝ × ℝ) (0, 16) = 16 := distR_eq_of_sq (by norm_num) (by norm_num)
  have f3b : distR ((0 : ℝ), (0 : ℝ)) (0, 16) = 16 := distR_eq_of_sq (by norm_num) (by norm_num)
  have f4 : distR (0 : ℝ × ℝ) (0, 8) = 8 := distR_eq_of_sq (by norm_num) (by norm_num)
  have f4b : distR ((0 : ℝ), (0 : ℝ)) (0, 8) = 8 := distR_eq_of_sq (by norm_num) (by norm_num)
  have f5 : distR (6, 8) (0, 8) = 6 := distR_eq_of_sq (by norm_num) (by norm_num)
  have f6 : distR (0, 16) (0, 8) = 8 := distR_eq_of_sq (by norm_num) (by norm_num)
  -- iteration 1: sample (6,8)
  have hfn1 : findNearest [(⟨0, 0, none, 0⟩ : RRTNode)] 6 8 = some 0 := by
    simp [findNearest, List.enum, List.enumFrom]
  have hq1 : steer 10 0 0 6 8 = ((6 : ℝ), (8 : ℝ)) := by
    rw [steer_eq, show ((6 : ℝ) - 0) ^ 2 + ((8 : ℝ) - 0) ^ 2 = 100 by norm_num, sqrt_100]
    norm_num
  have hnb1 : findNearby 11 [(⟨0, 0, none, 0⟩ : RRTNode)] 6 8 = [0] := by
    norm_num [findNearby, List.enum, List.enumFrom, List.filterMap_cons, List.filterMap_nil, f1, f1b]
  have hgc10 : getCost [(⟨0, 0, none, 0⟩ : RRTNode)] 0 = 0 := by
    show getCostAux [(⟨0, 0, none, 0⟩ : RRTNode)] (0 + 1) 0 = 0
    rw [getCostAux_succ_root [(⟨0, 0, none, 0⟩ : RRTNode)] 0 0 ⟨0, 0, none, 0⟩ rfl rfl]
  have hx1 : starExtend ⟨[], 10, 11, 0⟩ ⟨[⟨0, 0, none, 0⟩], none, none⟩ (6, 8) =
      some ⟨(6, 8), [0], 1, [⟨0, 0, none, 0⟩, ⟨6, 8, some 0, 10⟩]⟩ := by
    norm_num [starExtend, hfn1, hq1, hnb1, hgc10, isPathCollisionFree_nil,
      chooseParent, cpStep, sqrt_100]
  have hstep1 : starStep ⟨[], 10, 11, 0⟩ (0, 0) ⟨[⟨0, 0, none, 0⟩], none, none⟩ (6, 8) =
      ⟨[⟨0, 0, none, 0⟩, ⟨6, 8, some 0, 10⟩], none, none⟩ := by
    rw [starStep_some hx1]
    norm_num [rewireOne, hnn]
  -- iteration 2: sample (0,16)
  have hfn2 : findNearest [(⟨0, 0, none, 0⟩ : RRTNode), ⟨6, 8, some 0, 10⟩] 0 16 = some 1 := by
    norm_num [findNearest, List.enum, List.enumFrom, f2, f3, f3b]
  have hq2 : steer 10 6 8 0 16 = ((0 : ℝ), (16 : ℝ)) := by
    rw [steer_eq, show ((0 : ℝ) - 6) ^ 2 + ((16 : ℝ) - 8) ^ 2 = 100 by norm_num, sqrt_100]
    norm_num
  have hnb2 : findNearby 11 [(⟨0, 0, none, 0⟩ : RRTNode), ⟨6, 8, some 0, 10⟩] 0 16 = [1] := by
    norm_num [findNearby, List.enum, List.enumFrom, List.filterMap_cons, List.filterMap_nil, f2, f3, f3b]
  have hgc21 : getCost [(⟨0, 0, none, 0⟩ : RRTNode), ⟨6, 8, some 0, 10⟩] 1 = 10 := by
    show getCostAux [(⟨0, 0, none, 0⟩ : RRTNode), ⟨6, 8, some 0, 10⟩] (1 + 1) 1 = 10
    rw [getCostAux_succ_step [(⟨0, 0, none, 0⟩ : RRTNode), ⟨6, 8, some 0, 10⟩] 1 1 0
        ⟨6, 8, some 0, 10⟩ ⟨0, 0, none, 0⟩ rfl rfl rfl,
      getCostAux_succ_root [(⟨0, 0, none, 0⟩ : RRTNode), ⟨6, 8, some 0, 10⟩] 0 0
        ⟨0, 0, none, 0⟩ rfl rfl]
    norm_num [sqrt_100]
  have hx2 : starExtend ⟨[], 10, 11, 0⟩
      ⟨[⟨0, 0, none, 0⟩, ⟨6, 8, some 0, 10⟩], none, none⟩ (0, 16) =
      some ⟨(0, 16), [1], 2,
        [⟨0, 0, none, 0⟩, ⟨6, 8, some 0, 10⟩, ⟨0, 16, some 1, 20⟩]⟩ := by
    norm_num [starExtend, hfn2, hq2, hnb2, hgc21, isPathCollisionFree_nil,
      chooseParent, cpStep, sqrt_100]
  have hstep2 : starStep ⟨[], 10, 11, 0⟩ (0, 0)
      ⟨[⟨0, 0, none, 0⟩, ⟨6, 8, some 0, 10⟩], none, none⟩ (0, 16) =
      ⟨[⟨0, 0, none, 0⟩, ⟨6, 8, some 0, 10⟩, ⟨0, 16, some 1, 20⟩], none, none⟩ := by
    rw [starStep_some hx2]
    norm_num [rewireOne, hnn]
  -- iteration 3: sample (0,8)
  have hfn3 : findNearest
      [(⟨0, 0, none, 0⟩ : RRTNode), ⟨6, 8, some 0, 10⟩, ⟨0, 16, some 1, 20⟩] 0 8 = some 1 := by
    norm_num [findNearest, List.enum, List.enumFrom, f4, f4b, f5, f6]
  have hq3 : steer 10 6 8 0 8 = ((0 : ℝ), (8 : ℝ)) := by
    rw [steer_eq, show ((0 : ℝ) - 6) ^ 2 + ((8 : ℝ) - 8) ^ 2 = 36 by norm_num, sqrt_36]
    norm_num
  have hnb3 : findNearby 11
      [(⟨0, 0, none, 0⟩ : RRTNode), ⟨6, 8, some 0, 10⟩, ⟨0, 16, some 1, 20⟩] 0 8 =
      [0, 1, 2] := by
    norm_num [findNearby, List.enum, List.enumFrom, List.filterMap_cons, List.filterMap_nil, f4, f4b, f5, f6]
  have hgc30 : getCost
      [(⟨0, 0, none, 0⟩ : RRTNode), ⟨6, 8, some 0, 10⟩, ⟨0, 16, some 1, 20⟩] 0 = 0 := by
    show getCostAux
      [(⟨0, 0, none, 0⟩ : RRTNode), ⟨6, 8, some 0, 10⟩, ⟨0, 16, some 1, 20⟩] (2 + 1) 0 = 0
    rw [getCostAux_succ_root
      [(⟨0, 0, none, 0⟩ : RRTNode), ⟨6, 8, some 0, 10⟩, ⟨0, 16, some 1, 20⟩] 2 0
      ⟨0, 0, none, 0⟩ rfl rfl]
  have hgc31 : getCost
      [(⟨0, 0, none, 0⟩ : RRTNode), ⟨6, 8, some 0, 10⟩, ⟨0, 16, some 1, 20⟩] 1 = 10 := by
    show getCostAux
      [(⟨0, 0, none, 0⟩ : RRTNode), ⟨6, 8, some 0, 10⟩, ⟨0, 16, some 1, 20⟩] (2 + 1) 1 = 10
    rw [getCostAux_succ_step
        [(⟨0, 0, none, 0⟩ : RRTNode), ⟨6, 8, some 0, 10⟩, ⟨0, 16, some 1, 20⟩] 2 1 0
        ⟨6, 8, some 0, 10⟩ ⟨0, 0, none, 0⟩ rfl rfl rfl,
      getCostAux_succ_root
        [(⟨0, 0, none, 0⟩ : RRTNode), ⟨6, 8, some 0, 10⟩, ⟨0, 16, some 1, 20⟩] 1 0
        ⟨0, 0, none, 0⟩ rfl rfl]
    norm_num [sqrt_100]
  have hgc32 : getCost
      [(⟨0, 0, none, 0⟩ : RRTNode), ⟨6, 8, some 0, 10⟩, ⟨0, 16, some 1, 20⟩] 2 = 20 := by
    show getCostAux
      [(⟨0, 0, none, 0⟩ : RRTNode), ⟨6, 8, some 0, 10⟩, ⟨0, 16, some 1, 20⟩] (2 + 1) 2 = 20
    rw [getCostAux_succ_step
        [(⟨0, 0, none, 0⟩ : RRTNode), ⟨6, 8, some 0, 10⟩, ⟨0, 16, some 1, 20⟩] 2 2 1
        ⟨0, 16, some 1, 20⟩ ⟨6, 8, some 0, 10⟩ rfl rfl rfl,
      getCostAux_succ_step
        [(⟨0, 0, none, 0⟩ : RRTNode), ⟨6, 8, some 0, 10⟩, ⟨0, 16, some 1, 20⟩] 1 1 0
        ⟨6, 8, some 0, 10⟩ ⟨0, 0, none, 0⟩ rfl rfl rfl,
      getCostAux_succ_root
        [(⟨0, 0, none, 0⟩ : RRTNode), ⟨6, 8, some 0, 10⟩, ⟨0, 16, some 1, 20⟩] 0 0
        ⟨0, 0, none, 0⟩ rfl rfl]
    norm_num [sqrt_100]
  have hx3 : starExtend ⟨[], 10, 11, 0⟩
      ⟨[⟨0, 0, none, 0⟩, ⟨6, 8, some 0, 10⟩, ⟨0, 16, some 1, 20⟩], none, none⟩ (0, 8) =
      some ⟨(0, 8), [0, 1, 2], 3,
        [⟨0, 0, none, 0⟩, ⟨6, 8, some 0, 10⟩, ⟨0, 16, some 1, 20⟩, ⟨0, 8, some 0, 8⟩]⟩ := by
    norm_num [starExtend, hfn3, hq3, hnb3, hgc30, hgc31, hgc32, isPathCollisionFree_nil,
      chooseParent, cpStep, sqrt_100, sqrt_36, sqrt_64]
  have hgc41 : getCost [(⟨0, 0, none, 0⟩ : RRTNode), ⟨6, 8, some 0, 10⟩,
      ⟨0, 16, some 1, 20⟩, ⟨0, 8, some 0, 8⟩] 1 = 10 := by
    show getCostAux [(⟨0, 0, none, 0⟩ : RRTNode), ⟨6, 8, some 0, 10⟩,
      ⟨0, 16, some 1, 20⟩, ⟨0, 8, some 0, 8⟩] (3 + 1) 1 = 10
    rw [getCostAux_succ_step [(⟨0, 0, none, 0⟩ : RRTNode), ⟨6, 8, some 0, 10⟩,
        ⟨0, 16, some 1, 20⟩, ⟨0, 8, some 0, 8⟩] 3 1 0
        ⟨6, 8, some 0, 10⟩ ⟨0, 0, none, 0⟩ rfl rfl rfl,
      getCostAux_succ_root [(⟨0, 0, none, 0⟩ : RRTNode), ⟨6, 8, some 0, 10⟩,
        ⟨0, 16, some 1, 20⟩, ⟨0, 8, some 0, 8⟩] 2 0
        ⟨0, 0, none, 0⟩ rfl rfl]
    norm_num [sqrt_100]
  have hgc42 : getCost [(⟨0, 0, none, 0⟩ : RRTNode), ⟨6, 8, some 0, 10⟩,
      ⟨0, 16, some 1, 20⟩, ⟨0, 8, some 0, 8⟩] 2 = 20 := by
    show getCostAux [(⟨0, 0, none, 0⟩ : RRTNode), ⟨6, 8, some 0, 10⟩,
      ⟨0, 16, some 1, 20⟩, ⟨0, 8, some 0, 8⟩] (3 + 1) 2 = 20
    rw [getCostAux_succ_step [(⟨0, 0, none, 0⟩ : RRTNode), ⟨6, 8, some 0, 10⟩,
        ⟨0, 16, some 1, 20⟩, ⟨0, 8, some 0, 8⟩] 3 2 1
        ⟨0, 16, some 1, 20⟩ ⟨6, 8, some 0, 10⟩ rfl rfl rfl,
      getCostAux_succ_step [(⟨0, 0, none, 0⟩ : RRTNode), ⟨6, 8, some 0, 10⟩,
        ⟨0, 16, some 1, 20⟩, ⟨0, 8, some 0, 8⟩] 2 1 0
        ⟨6, 8, some 0, 10⟩ ⟨0, 0, none, 0⟩ rfl rfl rfl,
      getCostAux_succ_root [(⟨0, 0, none, 0⟩ : RRTNode), ⟨6, 8, some 0, 10⟩,
        ⟨0, 16, some 1, 20⟩, ⟨0, 8, some 0, 8⟩] 1 0
        ⟨0, 0, none, 0⟩ rfl rfl]
    norm_num [sqrt_100]
  have hstep3 : starStep ⟨[], 10, 11, 0⟩ (0, 0)
      ⟨[⟨0, 0, none, 0⟩, ⟨6, 8, some 0, 10⟩, ⟨0, 16, some 1, 20⟩], none, none⟩ (0, 8) =
      ⟨[⟨0, 0, none, 0⟩, ⟨6, 8, some 0, 10⟩, ⟨0, 16, some 3, 16⟩, ⟨0, 8, some 0, 8⟩],
        none, none⟩ := by
    rw [starStep_some hx3]
    norm_num [rewireOne, hnn, hgc41, hgc42, isPathCollisionFree_nil, sqrt_36, sqrt_64]
  have hloop : starLoop ⟨[], 10, 11, 0⟩ (0, 0) (initStar (0, 0))
      [(6, 8), (0, 16), (0, 8)] =
      ⟨[⟨0, 0, none, 0⟩, ⟨6, 8, some 0, 10⟩, ⟨0, 16, some 3, 16⟩, ⟨0, 8, some 0, 8⟩],
        none, none⟩ := by
    simp only [starLoop, List.foldl_cons, List.foldl_nil]
    rw [show initStar ((0 : ℝ), (0 : ℝ)) =
        (⟨[⟨0, 0, none, 0⟩], none, none⟩ : StarState) from rfl, hstep1, hstep2, hstep3]
  rw [hloop]
  exact ⟨⟨0, 16, some 3, 16⟩, rfl, rfl, by norm_num⟩

/-- Closed instantiation of `c10_amended`: on a 5×5 grid with obstacle
size 2 (which fits), one random placement completes normally and the
out-of-bounds operations are no-ops. -/
theorem c10_amended_witness :
    ((2 : ℤ) < (mkGrid 5 5).width ∧ (2 : ℤ) < (mkGrid 5 5).height) ∧
      ((∃ g', addRandomObstacles (mkGrid 5 5) 2 [(1, 2)] = some g' ∧
          ∀ cx cy, g'.blocked cx cy = true →
            (mkGrid 5 5).blocked cx cy = true ∨
              (0 ≤ cx ∧ cx < (mkGrid 5 5).width ∧ 0 ≤ cy ∧ cy < (mkGrid 5 5).height)) ∧
        (∀ x y : ℤ, isValid (mkGrid 5 5) x y = false →
          addObstacle (mkGrid 5 5) x y = mkGrid 5 5 ∧ isFree (mkGrid 5 5) x y = false)) :=
  ⟨⟨by decide, by decide⟩, c10_amended (mkGrid 5 5) 2 [(1, 2)] (by decide) (by decide)⟩

end UAV
